import Mathlib

/-!
Verification of the Minesweeper knowledge-base inference engine
(`Sentence` and `MinesweeperAI` from `Week 1/minesweeper/minesweeper.py`).

The Python classes are embedded shallowly:

* a board cell is a pair of integers `(row, col)`;
* Python sets of cells become `Finset Cell`; the sentence list becomes
  `List Sentence` (order and duplicates preserved, as in the Python list);
* Python's arbitrary-precision integers become `ℤ`;
* the two `for`-loops of the subset-resolution pass, which mutate the
  sentence list while iterating over it by index, are modelled with explicit
  indices; they carry a fuel argument (returning `none` on exhaustion) so
  that the definitions stay structurally recursive and computable — the
  development proves the fuel never runs out;
* the unbounded `while knowledge_changed` loop of `add_knowledge` is fuelled
  the same way, and its termination is a theorem, not an assumption;
* iteration over a Python set (whose order is unspecified) is modelled as
  iteration over a canonically sorted list of the set's elements; every
  property proved about such iterations is order-independent.
-/

/-- A board cell `(row, col)`, with Python's integer coordinates. -/
abbrev Cell : Type := ℤ × ℤ

/-- A total order on cells used to serialise a Python set into a list
(row-major lexicographic order). -/
def cellLe (a b : Cell) : Prop :=
  a.1 < b.1 ∨ (a.1 = b.1 ∧ a.2 ≤ b.2)

instance : DecidableRel cellLe := by
  intro a b
  unfold cellLe
  exact inferInstance

instance : IsTrans Cell cellLe := by
  constructor
  intro a b c hab hbc
  rcases hab with h | ⟨h1, h2⟩ <;> rcases hbc with h' | ⟨h1', h2'⟩ <;>
    unfold cellLe <;> omega

instance : IsAntisymm Cell cellLe := by
  constructor
  intro a b hab hba
  rcases a with ⟨a1, a2⟩
  rcases b with ⟨b1, b2⟩
  rcases hab with h | ⟨h1, h2⟩ <;> rcases hba with h' | ⟨h1', h2'⟩ <;>
    simp only [Prod.mk.injEq] <;> omega

instance : IsTotal Cell cellLe := by
  constructor
  intro a b
  unfold cellLe
  omega

/-- Serialise a finite set of cells into the sorted list of its elements.
This models Python's `for c in someSet:` iteration with a fixed canonical
order; all engine behaviour proved below is independent of that order. -/
def sortFin (s : Finset Cell) : List Cell :=
  Quotient.lift (List.insertionSort cellLe)
    (fun _ _ h =>
      List.eq_of_perm_of_sorted
        (((List.perm_insertionSort cellLe _).trans h).trans
          (List.perm_insertionSort cellLe _).symm)
        (List.sorted_insertionSort cellLe _)
        (List.sorted_insertionSort cellLe _))
    s.val

/-- `class Sentence`: the logical statement "exactly `count` of the cells in
`cells` are mines".  Equality is structural (cells plus count), matching the
Python `__eq__`. -/
structure Sentence where
  cells : Finset Cell
  count : ℤ
deriving DecidableEq

/-- `Sentence.known_mines`: all cells are mines when `len(cells) == count`. -/
def Sentence.known_mines (s : Sentence) : Finset Cell :=
  if (s.cells.card : ℤ) = s.count then s.cells else ∅

/-- `Sentence.known_safes`: all cells are safe when `count == 0`. -/
def Sentence.known_safes (s : Sentence) : Finset Cell :=
  if s.count = 0 then s.cells else ∅

/-- `Sentence.mark_mine`: remove the cell and decrement the count if the
cell is in the sentence; no-op otherwise. -/
def Sentence.mark_mine (s : Sentence) (cell : Cell) : Sentence :=
  if cell ∈ s.cells then Sentence.mk (s.cells.erase cell) (s.count - 1) else s

/-- `Sentence.mark_safe`: remove the cell (count unchanged) if the cell is
in the sentence; no-op otherwise. -/
def Sentence.mark_safe (s : Sentence) (cell : Cell) : Sentence :=
  if cell ∈ s.cells then Sentence.mk (s.cells.erase cell) s.count else s

/-- `class MinesweeperAI`: the knowledge engine's state. -/
structure MinesweeperAI where
  height : ℤ
  width : ℤ
  moves_made : Finset Cell
  mines : Finset Cell
  safes : Finset Cell
  knowledge : List Sentence
deriving DecidableEq

/-- `MinesweeperAI.__init__`: fresh engine for an `height × width` board. -/
def MinesweeperAI.init (height width : ℤ) : MinesweeperAI :=
  MinesweeperAI.mk height width ∅ ∅ ∅ []

/-- `MinesweeperAI.mark_mine`: add the cell to `mines` and propagate
`Sentence.mark_mine` to every sentence in `knowledge`. -/
def MinesweeperAI.mark_mine (ai : MinesweeperAI) (cell : Cell) : MinesweeperAI :=
  { ai with
    mines := insert cell ai.mines
    knowledge := ai.knowledge.map (fun s => s.mark_mine cell) }

/-- `MinesweeperAI.mark_safe`: add the cell to `safes` and propagate
`Sentence.mark_safe` to every sentence in `knowledge`.  (The line removing
the cell from `mines` is commented out in the source.) -/
def MinesweeperAI.mark_safe (ai : MinesweeperAI) (cell : Cell) : MinesweeperAI :=
  { ai with
    safes := insert cell ai.safes
    knowledge := ai.knowledge.map (fun s => s.mark_safe cell) }

/-- `MinesweeperAI.get_surroundings`: the source's branching enumeration of
the neighbourhood of `cell`, transcribed branch by branch (including the
inner `left_bound` / `right_bound` tests of the `upper_bound` and
`lower_bound` branches, which are unreachable because those branches are
guarded by `elif`). -/
def MinesweeperAI.get_surroundings (ai : MinesweeperAI) (cell : Cell) : List Cell :=
  let left_x := cell.2 - 1
  let right_x := cell.2 + 1
  let up_y := cell.1 - 1
  let down_y := cell.1 + 1
  let left_bound := cell.2 = 0
  let right_bound := cell.2 = ai.width - 1
  let upper_bound := cell.1 = 0
  let lower_bound := cell.1 = ai.height - 1
  if left_bound then
    (if upper_bound then
      [(down_y, 0), (down_y, 1)]
    else if lower_bound then
      [(up_y, 0), (up_y, 1)]
    else
      [(up_y, 0), (up_y, 1), (down_y, 0), (down_y, 1)]) ++ [(cell.1, right_x)]
  else if right_bound then
    (if upper_bound then
      [(down_y, cell.2), (down_y, left_x)]
    else if lower_bound then
      [(up_y, left_x), (up_y, cell.2)]
    else
      [(up_y, left_x), (up_y, cell.2), (down_y, left_x), (down_y, cell.2)]) ++
      [(cell.1, left_x)]
  else if upper_bound then
    (if left_bound then
      [(down_y, right_x), (cell.1, right_x)]
    else if right_bound then
      [(down_y, left_x), (cell.1, left_x)]
    else
      [(down_y, left_x), (cell.1, left_x), (down_y, right_x), (cell.1, right_x)]) ++
      [(down_y, cell.2)]
  else if lower_bound then
    (if left_bound then
      [(up_y, right_x), (cell.1, right_x)]
    else if right_bound then
      [(up_y, left_x), (cell.1, left_x)]
    else
      [(up_y, left_x), (cell.1, left_x), (up_y, right_x), (cell.1, right_x)]) ++
      [(up_y, cell.2)]
  else
    [(cell.1, left_x), (up_y, left_x), (down_y, left_x),
     (cell.1, right_x), (up_y, right_x), (down_y, right_x),
     (up_y, cell.2), (down_y, cell.2)]

/-- One pass of `for sentence in self.knowledge: safes = safes.union(...)`. -/
def collectSafes (k : List Sentence) : Finset Cell :=
  k.foldl (fun acc s => acc ∪ s.known_safes) ∅

/-- One pass of `for sentence in self.knowledge: mines = mines.union(...)`. -/
def collectMines (k : List Sentence) : Finset Cell :=
  k.foldl (fun acc s => acc ∪ s.known_mines) ∅

/-- The cleanup of the fixed-point pass: collect into `remove_empty` every
sentence with `len(cells) == 0 and count == 0`, then keep the sentences not
in that list (`[x for x in self.knowledge if x not in remove_empty]`). -/
def removeEmptySentences (k : List Sentence) : List Sentence :=
  let remove_empty := k.filter (fun s => decide (s.cells = ∅ ∧ s.count = 0))
  k.filter (fun x => decide (x ∉ remove_empty))

/-- `for safe in safes: self.mark_safe(safe)` over a serialised cell list. -/
def markSafeList (ai : MinesweeperAI) (l : List Cell) : MinesweeperAI :=
  l.foldl MinesweeperAI.mark_safe ai

/-- `for mine in mines: self.mark_mine(mine)` over a serialised cell list. -/
def markMineList (ai : MinesweeperAI) (l : List Cell) : MinesweeperAI :=
  l.foldl MinesweeperAI.mark_mine ai

/-- The inner `for s2 in self.knowledge` loop of the subset-resolution pass,
with Python's index semantics: the list is read at index `j` each iteration,
and the body may append a derived sentence and `remove` (first occurrence of
an equal value) the superset sentence `s2`, shifting later elements.  The
first argument is fuel; `none` means the fuel ran out before the index
reached the end of the (possibly rewritten) list. -/
def innerLoopF : ℕ → Sentence → ℕ → List Sentence → Bool → Option (List Sentence × Bool)
  | 0, _, j, k, changed =>
    if j < k.length then none else some (k, changed)
  | Nat.succ f, s1, j, k, changed =>
    if h : j < k.length then
      let s2 := k.get ⟨j, h⟩
      if s1 = s2 then innerLoopF f s1 (j + 1) k changed
      else if s1.cells ⊆ s2.cells then
        innerLoopF f s1 (j + 1)
          ((k ++ [Sentence.mk (s2.cells \ s1.cells) (s2.count - s1.count)]).erase s2)
          true
      else innerLoopF f s1 (j + 1) k changed
    else some (k, changed)

/-- The outer `for s1 in self.knowledge` loop of the subset-resolution pass,
again with index semantics over the mutating list.  Each iteration reads
`s1` at index `i` and runs the full inner loop (whose fuel `k.length` is
sufficient, since the body preserves the list's length). -/
def outerLoopF : ℕ → ℕ → List Sentence → Bool → Option (List Sentence × Bool)
  | 0, i, k, changed =>
    if i < k.length then none else some (k, changed)
  | Nat.succ f, i, k, changed =>
    if h : i < k.length then
      match innerLoopF k.length (k.get ⟨i, h⟩) 0 k changed with
      | none => none
      | some (k', changed') => outerLoopF f (i + 1) k' changed'
    else some (k, changed)

/-- The whole `Combine sentences and add new logic` double loop. -/
def pairwisePass (k : List Sentence) (changed : Bool) : Option (List Sentence × Bool) :=
  outerLoopF k.length 0 k changed

/-- One iteration of the `while knowledge_changed` body: collect the safes,
mines and empty sentences from the current knowledge, drop the empty
sentences, mark every collected safe and mine (each mark sets
`knowledge_changed = True`, i.e. the flag is set exactly when a collected
set is non-empty), then run the subset-resolution double loop. -/
def MinesweeperAI.sweep (ai : MinesweeperAI) : Option (MinesweeperAI × Bool) :=
  let safes := collectSafes ai.knowledge
  let mines := collectMines ai.knowledge
  let ai1 : MinesweeperAI := { ai with knowledge := removeEmptySentences ai.knowledge }
  let ai2 := markSafeList ai1 (sortFin safes)
  let ai3 := markMineList ai2 (sortFin mines)
  match pairwisePass ai3.knowledge (decide (safes ≠ ∅ ∨ mines ≠ ∅)) with
  | none => none
  | some (k', changed') => some ({ ai3 with knowledge := k' }, changed')

/-- The `while knowledge_changed` loop: run sweeps until one reports no
change, returning the state after that final sweep; `none` when the fuel is
exhausted first. -/
def inferLoop : ℕ → MinesweeperAI → Option MinesweeperAI
  | 0, _ => none
  | Nat.succ f, ai =>
    match ai.sweep with
    | none => none
    | some (ai', changed) => if changed then inferLoop f ai' else some ai'

/-- The body of the `for c in self.get_surroundings(cell)` loop of
`add_knowledge`, acting on the pair (engine state, sentence under
construction).  When the observed `count` is zero, unknown neighbours are
added both to the sentence and directly to `self.safes`; otherwise unknown
neighbours are added to the sentence and the working count is decremented
for each neighbour already known to be a mine. -/
def obsStep (count : ℤ) (p : MinesweeperAI × Sentence) (c : Cell) :
    MinesweeperAI × Sentence :=
  if count = 0 then
    if c ∉ p.1.safes ∧ c ∉ p.1.mines then
      ({ p.1 with safes := insert c p.1.safes },
        { p.2 with cells := insert c p.2.cells })
    else p
  else
    (p.1,
      let s1 :=
        if c ∉ p.1.mines ∧ c ∉ p.1.safes then
          { p.2 with cells := insert c p.2.cells }
        else p.2
      if c ∈ p.1.mines then { s1 with count := s1.count - 1 } else s1)

/-- The part of `MinesweeperAI.add_knowledge(cell, count)` before the
`while` loop: record the move in `moves_made`, mark the cell safe, build the
new sentence over the cell's surroundings, and append it to `knowledge`. -/
def MinesweeperAI.observe (ai : MinesweeperAI) (cell : Cell) (count : ℤ) :
    MinesweeperAI :=
  let ai0 := { ai with moves_made := insert cell ai.moves_made }
  let ai1 := ai0.mark_safe cell
  let p := (ai1.get_surroundings cell).foldl (obsStep count) (ai1, Sentence.mk ∅ count)
  { p.1 with knowledge := p.1.knowledge ++ [p.2] }

/-- `MinesweeperAI.add_knowledge(cell, count)`: the observation preamble
followed by the fixed-point deduction loop (fuelled; `none` iff the fuel
runs out before the loop reaches its fixed point). -/
def MinesweeperAI.add_knowledge (ai : MinesweeperAI) (fuel : ℕ) (cell : Cell)
    (count : ℤ) : Option MinesweeperAI :=
  inferLoop fuel (ai.observe cell count)

/-- `MinesweeperAI.make_safe_move` as a state transformer: the method only
reads `self.safes` and `self.moves_made` (`for safe_cell in self.safes: if
safe_cell not in self.moves_made: return safe_cell`), so the returned state
is the input state. -/
def MinesweeperAI.make_safe_move_run (ai : MinesweeperAI) :
    Option Cell × MinesweeperAI :=
  ((sortFin ai.safes).find? (fun c => decide (c ∉ ai.moves_made)), ai)

/-- The return value of `MinesweeperAI.make_safe_move`. -/
def MinesweeperAI.make_safe_move (ai : MinesweeperAI) : Option Cell :=
  ai.make_safe_move_run.1

/-- `MinesweeperAI.make_random_move` as a state transformer: `for x in
range(self.width): for y in range(self.height):` return the first cell
`(y, x)` that is in neither `moves_made` nor `mines`.  The method reads but
never writes the engine state.  Despite its name it uses no randomness. -/
def MinesweeperAI.make_random_move_run (ai : MinesweeperAI) :
    Option Cell × MinesweeperAI :=
  ((List.range ai.width.toNat).findSome? (fun (x : ℕ) =>
      ((List.range ai.height.toNat).find? (fun (y : ℕ) =>
          decide (((y : ℤ), (x : ℤ)) ∉ ai.moves_made ∧
            ((y : ℤ), (x : ℤ)) ∉ ai.mines))).map
        (fun (y : ℕ) => (((y : ℤ), (x : ℤ)) : Cell))),
    ai)

/-- The return value of `MinesweeperAI.make_random_move`. -/
def MinesweeperAI.make_random_move (ai : MinesweeperAI) : Option Cell :=
  ai.make_random_move_run.1

/-- The cell lies on the `height × width` board. -/
def inBoundsCell (height width : ℤ) (c : Cell) : Prop :=
  0 ≤ c.1 ∧ c.1 < height ∧ 0 ≤ c.2 ∧ c.2 < width

instance (height width : ℤ) (c : Cell) : Decidable (inBoundsCell height width c) := by
  unfold inBoundsCell
  exact inferInstance

/-- `c` is in the Moore neighbourhood of `cell`: Chebyshev distance exactly
one, i.e. distance at most one and not the cell itself. -/
def adjacentCell (cell c : Cell) : Prop :=
  c ≠ cell ∧ cell.1 - 1 ≤ c.1 ∧ c.1 ≤ cell.1 + 1 ∧ cell.2 - 1 ≤ c.2 ∧ c.2 ≤ cell.2 + 1

instance (cell c : Cell) : Decidable (adjacentCell cell c) := by
  unfold adjacentCell
  exact inferInstance

/-- A cell is a candidate for `make_random_move`: on the board, not yet
played and not known to be a mine. -/
def randomCandidate (ai : MinesweeperAI) (c : Cell) : Prop :=
  inBoundsCell ai.height ai.width c ∧ c ∉ ai.moves_made ∧ c ∉ ai.mines

instance (ai : MinesweeperAI) (c : Cell) : Decidable (randomCandidate ai c) := by
  unfold randomCandidate
  exact inferInstance

/-- The sentence is exactly true of the ground-truth mine set `M`: its count
is the number of its cells that are mines. -/
def SentTrue (M : Finset Cell) (s : Sentence) : Prop :=
  s.count = ((s.cells ∩ M).card : ℤ)

/-- The engine's soundness invariant with respect to the ground-truth mine
set `M`: every sentence is exactly true, every known mine is a mine, and no
known safe is a mine. -/
def EngineInv (M : Finset Cell) (ai : MinesweeperAI) : Prop :=
  (∀ s ∈ ai.knowledge, SentTrue M s) ∧ ai.mines ⊆ M ∧ ∀ c ∈ ai.safes, c ∉ M

/-- Total number of cell occurrences across a sentence list: the
"unknown-cell mass" that the termination argument decreases. -/
def massK (k : List Sentence) : ℕ :=
  (k.map (fun s => s.cells.card)).sum

/-- Unknown-cell mass of the engine's knowledge. -/
def massAI (ai : MinesweeperAI) : ℕ :=
  massK ai.knowledge

/-- Every ground-truth mine lies on the `height × width` board. -/
def MinesOnBoard (height width : ℤ) (M : Finset Cell) : Prop :=
  ∀ c ∈ M, inBoundsCell height width c

instance (height width : ℤ) (M : Finset Cell) :
    Decidable (MinesOnBoard height width M) := by
  unfold MinesOnBoard
  exact inferInstance

/-- A legal, truthful observation for ground truth `M` in state `ai`: the
revealed cell is on the board, was not previously played, is not itself a
mine (the board only reports counts for non-mine cells), and the reported
count is the true number of mines among the cell's Moore neighbours. -/
def LegalObs (M : Finset Cell) (ai : MinesweeperAI) (cell : Cell) (count : ℤ) : Prop :=
  inBoundsCell ai.height ai.width cell ∧ cell ∉ ai.moves_made ∧ cell ∉ M ∧
    count = ((M.filter (fun c => adjacentCell cell c)).card : ℤ)

instance (M : Finset Cell) (ai : MinesweeperAI) (cell : Cell) (count : ℤ) :
    Decidable (LegalObs M ai cell count) := by
  unfold LegalObs
  exact inferInstance

/-- Engine states reachable from a freshly constructed `MinesweeperAI` by
truthful `add_knowledge` calls, for a fixed board size and ground-truth mine
set `M` lying on the board.  A step records that some fuel sufficed, i.e.
that the call returned normally. -/
inductive Reach (height width : ℤ) (M : Finset Cell) : MinesweeperAI → Prop where
  | start : MinesOnBoard height width M → Reach height width M (MinesweeperAI.init height width)
  | step {ai ai' : MinesweeperAI} {cell : Cell} {count : ℤ} {fuel : ℕ} :
      Reach height width M ai → LegalObs M ai cell count →
      ai.add_knowledge fuel cell count = some ai' → Reach height width M ai'

/-- The board dimensions are unchanged and the three global cell sets of `a`
are contained in those of `b`: the per-operation monotonicity relation. -/
def setsGrow (a b : MinesweeperAI) : Prop :=
  a.height = b.height ∧ a.width = b.width ∧
    a.moves_made ⊆ b.moves_made ∧ a.mines ⊆ b.mines ∧ a.safes ⊆ b.safes

/-! ### Basic lemmas -/

theorem mem_sortFin {s : Finset Cell} {c : Cell} : c ∈ sortFin s ↔ c ∈ s := by
  rcases s with ⟨m, hm⟩
  induction m using Quotient.inductionOn with
  | h l =>
    show c ∈ List.insertionSort cellLe l ↔ _
    rw [List.mem_insertionSort]
    exact Iff.rfl

theorem sortFin_empty : sortFin ∅ = [] := rfl

theorem mem_removeEmptySentences {k : List Sentence} {s : Sentence} :
    s ∈ removeEmptySentences k ↔ s ∈ k ∧ ¬(s.cells = ∅ ∧ s.count = 0) := by
  unfold removeEmptySentences
  simp only [List.mem_filter, decide_eq_true_eq]
  constructor
  · rintro ⟨hs, hnot⟩
    refine ⟨hs, fun hempty => hnot ⟨hs, hempty⟩⟩
  · rintro ⟨hs, hnot⟩
    exact ⟨hs, fun hmem => hnot hmem.2⟩

theorem Sentence.mark_safe_idem (s : Sentence) (c : Cell) :
    (s.mark_safe c).mark_safe c = s.mark_safe c := by
  by_cases h : c ∈ s.cells
  · simp [Sentence.mark_safe, h, Finset.not_mem_erase]
  · simp [Sentence.mark_safe, h]

theorem Sentence.mark_mine_idem (s : Sentence) (c : Cell) :
    (s.mark_mine c).mark_mine c = s.mark_mine c := by
  by_cases h : c ∈ s.cells
  · simp [Sentence.mark_mine, h, Finset.not_mem_erase]
  · simp [Sentence.mark_mine, h]

/-! ### C4: the cleanup step -/

/-- C4, counterexample: the claim says the cleanup drops every sentence with
an empty cell set regardless of its count; but the code keeps a sentence
with empty cells and count 1 (the `remove_empty` test requires
`len(sentence.cells) == 0 and sentence.count == 0`). -/
theorem cleanup_keeps_empty_nonzero_count :
    Sentence.mk ∅ 1 ∈ removeEmptySentences [Sentence.mk ∅ 1] := by decide

/-- C4, amended: the cleanup step of the fixed-point pass removes exactly
the sentences whose cell set is empty and whose count is zero; a sentence
with empty cells but nonzero count is kept. -/
theorem cleanup_removes_exactly_empty_zero (k : List Sentence) (s : Sentence) :
    s ∈ removeEmptySentences k ↔ s ∈ k ∧ ¬(s.cells = ∅ ∧ s.count = 0) :=
  mem_removeEmptySentences

/-! ### C8: idempotence of the mark operations -/

/-- C8: marking the same cell safe twice in a row yields the same engine
state (all fields, including every sentence in `knowledge`) as marking it
once, and likewise for marking it as a mine. -/
theorem mark_safe_mark_mine_idempotent (ai : MinesweeperAI) (c : Cell) :
    (ai.mark_safe c).mark_safe c = ai.mark_safe c ∧
    (ai.mark_mine c).mark_mine c = ai.mark_mine c := by
  constructor
  · simp only [MinesweeperAI.mark_safe, Finset.insert_idem, List.map_map]
    refine congrArg (fun k => MinesweeperAI.mk _ _ _ _ _ k) ?_
    simp only [Function.comp_def]
    exact List.map_congr_left fun s _ => Sentence.mark_safe_idem s c
  · simp only [MinesweeperAI.mark_mine, Finset.insert_idem, List.map_map]
    refine congrArg (fun k => MinesweeperAI.mk _ _ _ _ _ k) ?_
    simp only [Function.comp_def]
    exact List.map_congr_left fun s _ => Sentence.mark_mine_idem s c

/-! ### C10: the move-selection queries do not mutate the engine -/

/-- C10: `make_safe_move` and `make_random_move`, modelled as state
transformers, leave every component of the engine state (moves made, mines,
safes, and the whole sentence list) unchanged. -/
theorem move_queries_leave_state_unchanged (ai : MinesweeperAI) :
    ai.make_safe_move_run.2.moves_made = ai.moves_made ∧
    ai.make_safe_move_run.2.mines = ai.mines ∧
    ai.make_safe_move_run.2.safes = ai.safes ∧
    ai.make_safe_move_run.2.knowledge = ai.knowledge ∧
    ai.make_random_move_run.2.moves_made = ai.moves_made ∧
    ai.make_random_move_run.2.mines = ai.mines ∧
    ai.make_random_move_run.2.safes = ai.safes ∧
    ai.make_random_move_run.2.knowledge = ai.knowledge :=
  ⟨rfl, rfl, rfl, rfl, rfl, rfl, rfl, rfl⟩

/-! ### C6: subset resolution on the concrete scenario of the spec -/

/-- C6: with knowledge `A = {(0,0),(0,1)} = 1` and
`B = {(0,0),(0,1),(0,2)} = 2`, one subset-resolution pass derives the
sentence `{(0,2)} = 1` and removes `B`, and the full fixed-point deduction
loop then concludes that `(0,2)` is a mine. -/
theorem subset_resolution_derives_and_concludes :
    pairwisePass
        [Sentence.mk {((0:ℤ), (0:ℤ)), ((0:ℤ), (1:ℤ))} 1,
         Sentence.mk {((0:ℤ), (0:ℤ)), ((0:ℤ), (1:ℤ)), ((0:ℤ), (2:ℤ))} 2] false =
      some ([Sentence.mk {((0:ℤ), (0:ℤ)), ((0:ℤ), (1:ℤ))} 1,
             Sentence.mk {((0:ℤ), (2:ℤ))} 1], true) ∧
    (inferLoop 4 (MinesweeperAI.mk 3 3 ∅ ∅ ∅
        [Sentence.mk {((0:ℤ), (0:ℤ)), ((0:ℤ), (1:ℤ))} 1,
         Sentence.mk {((0:ℤ), (0:ℤ)), ((0:ℤ), (1:ℤ)), ((0:ℤ), (2:ℤ))} 2])).isSome
      = true ∧
    ((inferLoop 4 (MinesweeperAI.mk 3 3 ∅ ∅ ∅
        [Sentence.mk {((0:ℤ), (0:ℤ)), ((0:ℤ), (1:ℤ))} 1,
         Sentence.mk {((0:ℤ), (0:ℤ)), ((0:ℤ), (1:ℤ)), ((0:ℤ), (2:ℤ))} 2])).elim
        ∅ MinesweeperAI.mines) = {((0:ℤ), (2:ℤ))} :=
  ⟨by decide, by decide, by decide⟩

/-! ### C3: the neighbourhood enumeration -/

/-- C3, amended: for boards with height and width at least 2 and an
in-bounds cell, `get_surroundings` returns exactly the Moore neighbourhood
clipped to the board: every returned cell is in bounds and adjacent (in
particular distinct from the cell itself), and every in-bounds adjacent
cell is returned. -/
theorem get_surroundings_spec (ai : MinesweeperAI) (cell : Cell)
    (hh : 2 ≤ ai.height) (hw : 2 ≤ ai.width)
    (hc : inBoundsCell ai.height ai.width cell) :
    (∀ c ∈ ai.get_surroundings cell,
        inBoundsCell ai.height ai.width c ∧ adjacentCell cell c) ∧
    (∀ c, inBoundsCell ai.height ai.width c → adjacentCell cell c →
        c ∈ ai.get_surroundings cell) := by
  obtain ⟨r, c0⟩ := cell
  obtain ⟨h1, h2, h3, h4⟩ := hc
  constructor
  · rintro ⟨cr, cc⟩ hmem
    simp only [MinesweeperAI.get_surroundings] at hmem
    unfold inBoundsCell adjacentCell
    simp only [ne_eq, Prod.mk.injEq]
    split_ifs at hmem <;>
      simp only [List.mem_append, List.mem_cons, List.not_mem_nil, or_false,
        Prod.mk.injEq] at hmem <;> omega
  · rintro ⟨cr, cc⟩ hcb hadj
    obtain ⟨hb1, hb2, hb3, hb4⟩ := hcb
    obtain ⟨hne, ha1, ha2, ha3, ha4⟩ := hadj
    simp only [ne_eq, Prod.mk.injEq] at hne
    simp only [MinesweeperAI.get_surroundings]
    split_ifs <;>
      simp only [List.mem_append, List.mem_cons, List.not_mem_nil, or_false,
        Prod.mk.injEq] <;> omega

/-- C3, counterexample: on a 1 × 1 board the in-bounds cell `(0, 0)` gets a
surroundings list containing the out-of-bounds cell `(1, 0)`, so the claim
as stated (for every board with height ≥ 1 and width ≥ 1, every returned
coordinate is in bounds) is false. -/
theorem get_surroundings_out_of_bounds_on_one_by_one :
    inBoundsCell 1 1 ((0:ℤ), (0:ℤ)) ∧
    ((1:ℤ), (0:ℤ)) ∈ (MinesweeperAI.mk 1 1 ∅ ∅ ∅ []).get_surroundings (0, 0) ∧
    ¬ inBoundsCell 1 1 ((1:ℤ), (0:ℤ)) :=
  ⟨by decide, by decide, by decide⟩

/-! ### C9: make_safe_move -/

/-- C9: `make_safe_move` returns a cell of `safes − moves_made` whenever
that set is non-empty, and it reports none exactly when that set is
empty. -/
theorem make_safe_move_spec (ai : MinesweeperAI) :
    (∀ c, ai.make_safe_move = some c → c ∈ ai.safes \ ai.moves_made) ∧
    (ai.make_safe_move = none ↔ ai.safes \ ai.moves_made = ∅) := by
  unfold MinesweeperAI.make_safe_move MinesweeperAI.make_safe_move_run
  constructor
  · intro c hc
    have hmem := List.mem_of_find?_eq_some hc
    have hp := List.find?_some hc
    rw [mem_sortFin] at hmem
    simp only [decide_eq_true_eq] at hp
    exact Finset.mem_sdiff.mpr ⟨hmem, hp⟩
  · rw [List.find?_eq_none]
    constructor
    · intro h
      refine Finset.eq_empty_iff_forall_not_mem.mpr ?_
      intro c hc
      rw [Finset.mem_sdiff] at hc
      have h2 := h c (mem_sortFin.mpr hc.1)
      simp only [decide_eq_true_eq, not_not] at h2
      exact hc.2 h2
    · intro h c hc
      rw [mem_sortFin] at hc
      simp only [decide_eq_true_eq, not_not]
      by_contra hcm
      exact Finset.eq_empty_iff_forall_not_mem.mp h c (Finset.mem_sdiff.mpr ⟨hc, hcm⟩)

/-- Witness for C9 at a concrete state with a known safe unplayed cell. -/
theorem make_safe_move_spec_witness :
    ((0:ℤ), (0:ℤ)) ∈ (MinesweeperAI.mk 2 2 ∅ ∅ {((0:ℤ), (0:ℤ))} []).safes \
      (MinesweeperAI.mk 2 2 ∅ ∅ {((0:ℤ), (0:ℤ))} []).moves_made :=
  (make_safe_move_spec (MinesweeperAI.mk 2 2 ∅ ∅ {((0:ℤ), (0:ℤ))} [])).1
    ((0:ℤ), (0:ℤ)) (by decide)

/-! ### C5: make_random_move -/

/-- C5, counterexample: in the fresh 1 × 2 engine both board cells are
candidates, yet `make_random_move` deterministically returns `(0, 0)` and
can never return the candidate `(0, 1)` — the selection is not uniformly
random (the method never consults a random source). -/
theorem make_random_move_not_uniform :
    (MinesweeperAI.init 1 2).make_random_move = some ((0:ℤ), (0:ℤ)) ∧
    randomCandidate (MinesweeperAI.init 1 2) ((0:ℤ), (1:ℤ)) ∧
    ¬ (MinesweeperAI.init 1 2).make_random_move = some ((0:ℤ), (1:ℤ)) :=
  ⟨by decide, by decide, by decide⟩

/-- C5, amended: `make_random_move` returns some cell of the board space
minus `moves_made ∪ mines` whenever that set is non-empty — chosen
deterministically (the first such cell in the code's column-major scan),
not uniformly at random — and reports none exactly when the set is
empty. -/
theorem make_random_move_spec (ai : MinesweeperAI) :
    (∀ c, ai.make_random_move = some c → randomCandidate ai c) ∧
    (ai.make_random_move = none ↔ ∀ c, ¬ randomCandidate ai c) := by
  unfold MinesweeperAI.make_random_move MinesweeperAI.make_random_move_run
  constructor
  · intro c hc
    obtain ⟨x, hx, hfx⟩ := List.exists_of_findSome?_eq_some hc
    rw [List.mem_range] at hx
    rw [Option.map_eq_some'] at hfx
    obtain ⟨y, hy, rfl⟩ := hfx
    have hymem := List.mem_of_find?_eq_some hy
    have hp := List.find?_some hy
    rw [List.mem_range] at hymem
    simp only [decide_eq_true_eq] at hp
    unfold randomCandidate inBoundsCell
    refine ⟨⟨?_, ?_, ?_, ?_⟩, hp.1, hp.2⟩ <;> omega
  · rw [List.findSome?_eq_none_iff]
    constructor
    · rintro h ⟨cr, cc⟩ hcand
      obtain ⟨⟨hb1, hb2, hb3, hb4⟩, hm1, hm2⟩ := hcand
      have hx : cc.toNat ∈ List.range ai.width.toNat := by rw [List.mem_range]; omega
      have h2 := h cc.toNat hx
      rw [Option.map_eq_none', List.find?_eq_none] at h2
      have hy : cr.toNat ∈ List.range ai.height.toNat := by rw [List.mem_range]; omega
      have h3 := h2 cr.toNat hy
      simp only [decide_eq_true_eq] at h3
      rw [Int.toNat_of_nonneg hb1, Int.toNat_of_nonneg hb3] at h3
      exact h3 ⟨hm1, hm2⟩
    · intro h x hx
      rw [Option.map_eq_none', List.find?_eq_none]
      intro y hy
      rw [List.mem_range] at hx hy
      simp only [decide_eq_true_eq]
      intro hcon
      refine h ((y : ℤ), (x : ℤ)) ⟨⟨?_, ?_, ?_, ?_⟩, hcon.1, hcon.2⟩ <;> omega

/-- Witness for C5 at a concrete state with a candidate cell. -/
theorem make_random_move_spec_witness :
    randomCandidate (MinesweeperAI.init 1 1) ((0:ℤ), (0:ℤ)) :=
  (make_random_move_spec (MinesweeperAI.init 1 1)).1 ((0:ℤ), (0:ℤ)) (by decide)

/-- Witness for C3 on the 3 × 3 board at the corner cell. -/
theorem get_surroundings_spec_witness :
    ((0:ℤ), (1:ℤ)) ∈ (MinesweeperAI.mk 3 3 ∅ ∅ ∅ []).get_surroundings (0, 0) :=
  (get_surroundings_spec (MinesweeperAI.mk 3 3 ∅ ∅ ∅ []) (0, 0) (by decide) (by decide)
    (by decide)).2 ((0:ℤ), (1:ℤ)) (by decide) (by decide)

/-! ### Monotonicity machinery (C7) -/

theorem setsGrow_rfl (a : MinesweeperAI) : setsGrow a a :=
  ⟨rfl, rfl, Finset.Subset.refl _, Finset.Subset.refl _, Finset.Subset.refl _⟩

theorem setsGrow_trans {a b c : MinesweeperAI} (h1 : setsGrow a b) (h2 : setsGrow b c) :
    setsGrow a c :=
  ⟨h1.1.trans h2.1, h1.2.1.trans h2.2.1, h1.2.2.1.trans h2.2.2.1,
    h1.2.2.2.1.trans h2.2.2.2.1, h1.2.2.2.2.trans h2.2.2.2.2⟩

theorem setsGrow_mark_safe (ai : MinesweeperAI) (c : Cell) :
    setsGrow ai (ai.mark_safe c) :=
  ⟨rfl, rfl, Finset.Subset.refl _, Finset.Subset.refl _,
    Finset.subset_insert c ai.safes⟩

theorem setsGrow_mark_mine (ai : MinesweeperAI) (c : Cell) :
    setsGrow ai (ai.mark_mine c) :=
  ⟨rfl, rfl, Finset.Subset.refl _, Finset.subset_insert c ai.mines,
    Finset.Subset.refl _⟩

theorem setsGrow_markSafeList (l : List Cell) : ∀ ai : MinesweeperAI,
    setsGrow ai (markSafeList ai l) := by
  induction l with
  | nil => intro ai; exact setsGrow_rfl ai
  | cons c t ih =>
    intro ai
    exact setsGrow_trans (setsGrow_mark_safe ai c) (ih (ai.mark_safe c))

theorem setsGrow_markMineList (l : List Cell) : ∀ ai : MinesweeperAI,
    setsGrow ai (markMineList ai l) := by
  induction l with
  | nil => intro ai; exact setsGrow_rfl ai
  | cons c t ih =>
    intro ai
    exact setsGrow_trans (setsGrow_mark_mine ai c) (ih (ai.mark_mine c))

theorem setsGrow_knowledge_update (ai : MinesweeperAI) (k : List Sentence) :
    setsGrow ai { ai with knowledge := k } :=
  ⟨rfl, rfl, Finset.Subset.refl _, Finset.Subset.refl _, Finset.Subset.refl _⟩

theorem setsGrow_sweep {ai ai' : MinesweeperAI} {ch : Bool}
    (h : ai.sweep = some (ai', ch)) : setsGrow ai ai' := by
  simp only [MinesweeperAI.sweep] at h
  split at h
  · exact absurd h (by simp)
  · rename_i k' ch' heq
    injection h with h
    injection h with h1 h2
    subst h1
    refine setsGrow_trans ?_ (setsGrow_knowledge_update _ k')
    refine setsGrow_trans ?_ (setsGrow_markMineList _ _)
    refine setsGrow_trans ?_ (setsGrow_markSafeList _ _)
    exact setsGrow_knowledge_update ai (removeEmptySentences ai.knowledge)

theorem setsGrow_inferLoop : ∀ (f : ℕ) (ai ai' : MinesweeperAI),
    inferLoop f ai = some ai' → setsGrow ai ai' := by
  intro f
  induction f with
  | zero =>
    intro ai ai' h
    exact absurd h (by simp [inferLoop])
  | succ f ih =>
    intro ai ai' h
    unfold inferLoop at h
    split at h
    · exact absurd h (by simp)
    · rename_i ai1 changed heq
      by_cases hch : changed = true
      · rw [hch] at h
        simp only [if_true] at h
        exact setsGrow_trans (setsGrow_sweep heq) (ih ai1 ai' h)
      · rw [Bool.not_eq_true] at hch
        rw [hch] at h
        simp only [Bool.false_eq_true, if_false] at h
        injection h with h
        subst h
        exact setsGrow_sweep heq

theorem setsGrow_obsFold (count : ℤ) : ∀ (l : List Cell) (p : MinesweeperAI × Sentence),
    setsGrow p.1 ((l.foldl (obsStep count) p).1) := by
  intro l
  induction l with
  | nil => intro p; exact setsGrow_rfl p.1
  | cons c t ih =>
    intro p
    refine setsGrow_trans ?_ (ih (obsStep count p c))
    unfold obsStep
    split
    · split
      · exact ⟨rfl, rfl, Finset.Subset.refl _, Finset.Subset.refl _,
          Finset.subset_insert _ _⟩
      · exact setsGrow_rfl p.1
    · exact setsGrow_rfl p.1

theorem setsGrow_observe (ai : MinesweeperAI) (cell : Cell) (count : ℤ) :
    setsGrow ai (ai.observe cell count) := by
  simp only [MinesweeperAI.observe]
  refine setsGrow_trans ?_ (setsGrow_knowledge_update _ _)
  refine setsGrow_trans ?_ (setsGrow_obsFold count _ _)
  refine setsGrow_trans (a := ai)
    (b := { ai with moves_made := insert cell ai.moves_made }) ?_ ?_
  · exact ⟨rfl, rfl, Finset.subset_insert _ _, Finset.Subset.refl _,
      Finset.Subset.refl _⟩
  · exact setsGrow_mark_safe _ cell

theorem setsGrow_add_knowledge {ai ai' : MinesweeperAI} {fuel : ℕ} {cell : Cell}
    {count : ℤ} (h : ai.add_knowledge fuel cell count = some ai') :
    setsGrow ai ai' := by
  unfold MinesweeperAI.add_knowledge at h
  exact setsGrow_trans (setsGrow_observe ai cell count)
    (setsGrow_inferLoop fuel _ _ h)

/-! ### C7: monotone growth of the global sets -/

/-- C7: across `mark_mine`, `mark_safe` and any returning `add_knowledge`
call, the sets `moves_made`, `mines` and `safes` only grow: every member
before the call is still a member after it. -/
theorem global_sets_monotone (ai ai' : MinesweeperAI) (c cell : Cell) (fuel : ℕ)
    (count : ℤ) :
    (ai.moves_made ⊆ (ai.mark_mine c).moves_made ∧
      ai.mines ⊆ (ai.mark_mine c).mines ∧ ai.safes ⊆ (ai.mark_mine c).safes) ∧
    (ai.moves_made ⊆ (ai.mark_safe c).moves_made ∧
      ai.mines ⊆ (ai.mark_safe c).mines ∧ ai.safes ⊆ (ai.mark_safe c).safes) ∧
    (ai.add_knowledge fuel cell count = some ai' →
      ai.moves_made ⊆ ai'.moves_made ∧ ai.mines ⊆ ai'.mines ∧ ai.safes ⊆ ai'.safes) :=
  ⟨(setsGrow_mark_mine ai c).2.2, (setsGrow_mark_safe ai c).2.2,
    fun h => (setsGrow_add_knowledge h).2.2⟩

/-- Witness for C7: a concrete returning `add_knowledge` call. -/
theorem global_sets_monotone_witness :
    ∃ ai', (MinesweeperAI.init 2 2).add_knowledge 3 (0, 0) 0 = some ai' ∧
      (MinesweeperAI.init 2 2).moves_made ⊆ ai'.moves_made ∧
      (MinesweeperAI.init 2 2).mines ⊆ ai'.mines ∧
      (MinesweeperAI.init 2 2).safes ⊆ ai'.safes := by
  have h : ((MinesweeperAI.init 2 2).add_knowledge 3 (0, 0) 0).isSome = true := by decide
  obtain ⟨ai', ha⟩ := Option.isSome_iff_exists.mp h
  exact ⟨ai', ha,
    (global_sets_monotone (MinesweeperAI.init 2 2) ai' (0, 0) (0, 0) 3 0).2.2 ha⟩

/-! ### Characterisations of known_safes, known_mines and the collectors -/

theorem mem_known_safes {s : Sentence} {c : Cell} :
    c ∈ s.known_safes ↔ s.count = 0 ∧ c ∈ s.cells := by
  unfold Sentence.known_safes
  split
  · rename_i h
    simp [h]
  · rename_i h
    simp [h]

theorem mem_known_mines {s : Sentence} {c : Cell} :
    c ∈ s.known_mines ↔ (s.cells.card : ℤ) = s.count ∧ c ∈ s.cells := by
  unfold Sentence.known_mines
  split
  · rename_i h
    simp [h]
  · rename_i h
    simp [h]

theorem mem_foldl_union (f : Sentence → Finset Cell) :
    ∀ (k : List Sentence) (acc : Finset Cell) (c : Cell),
      c ∈ k.foldl (fun a s => a ∪ f s) acc ↔ c ∈ acc ∨ ∃ s ∈ k, c ∈ f s := by
  intro k
  induction k with
  | nil => intro acc c; simp
  | cons s t ih =>
    intro acc c
    rw [List.foldl_cons, ih]
    simp only [Finset.mem_union, List.mem_cons]
    constructor
    · rintro ((h | h) | ⟨s', hs', h⟩)
      · exact Or.inl h
      · exact Or.inr ⟨s, Or.inl rfl, h⟩
      · exact Or.inr ⟨s', Or.inr hs', h⟩
    · rintro (h | ⟨s', (rfl | hs'), h⟩)
      · exact Or.inl (Or.inl h)
      · exact Or.inl (Or.inr h)
      · exact Or.inr ⟨s', hs', h⟩

theorem mem_collectSafes {k : List Sentence} {c : Cell} :
    c ∈ collectSafes k ↔ ∃ s ∈ k, s.count = 0 ∧ c ∈ s.cells := by
  unfold collectSafes
  rw [mem_foldl_union]
  simp only [Finset.not_mem_empty, false_or, mem_known_safes]

theorem mem_collectMines {k : List Sentence} {c : Cell} :
    c ∈ collectMines k ↔ ∃ s ∈ k, (s.cells.card : ℤ) = s.count ∧ c ∈ s.cells := by
  unfold collectMines
  rw [mem_foldl_union]
  simp only [Finset.not_mem_empty, false_or, mem_known_mines]

/-! ### Truth of sentences with respect to the ground-truth mine set -/

theorem sentTrue_count_zero {M : Finset Cell} {s : Sentence} (h : SentTrue M s)
    (h0 : s.count = 0) : ∀ c ∈ s.cells, c ∉ M := by
  intro c hc hcM
  have hcard : (s.cells ∩ M).card = 0 := by
    unfold SentTrue at h
    omega
  rw [Finset.card_eq_zero] at hcard
  have : c ∈ s.cells ∩ M := Finset.mem_inter.mpr ⟨hc, hcM⟩
  rw [hcard] at this
  exact absurd this (Finset.not_mem_empty c)

theorem sentTrue_count_full {M : Finset Cell} {s : Sentence} (h : SentTrue M s)
    (hfull : (s.cells.card : ℤ) = s.count) : ∀ c ∈ s.cells, c ∈ M := by
  intro c hc
  have hsub : s.cells ∩ M ⊆ s.cells := Finset.inter_subset_left
  have hcard : s.cells.card ≤ (s.cells ∩ M).card := by
    unfold SentTrue at h
    omega
  have heq := Finset.eq_of_subset_of_card_le hsub hcard
  rw [← heq] at hc
  exact (Finset.mem_inter.mp hc).2

theorem sentTrue_empty_cells {M : Finset Cell} {s : Sentence} (h : SentTrue M s)
    (he : s.cells = ∅) : s.count = 0 := by
  unfold SentTrue at h
  rw [he] at h
  simpa using h

theorem sentTrue_mark_safe {M : Finset Cell} {s : Sentence} {c : Cell}
    (h : SentTrue M s) (hc : c ∉ M) : SentTrue M (s.mark_safe c) := by
  unfold Sentence.mark_safe
  split
  · unfold SentTrue at h ⊢
    have : s.cells.erase c ∩ M = s.cells ∩ M := by
      ext x
      simp only [Finset.mem_inter, Finset.mem_erase]
      constructor
      · rintro ⟨⟨_, hx⟩, hxM⟩
        exact ⟨hx, hxM⟩
      · rintro ⟨hx, hxM⟩
        exact ⟨⟨fun hxc => hc (hxc ▸ hxM), hx⟩, hxM⟩
    simpa [this] using h
  · exact h

theorem sentTrue_mark_mine {M : Finset Cell} {s : Sentence} {c : Cell}
    (h : SentTrue M s) (hc : c ∈ M) : SentTrue M (s.mark_mine c) := by
  unfold Sentence.mark_mine
  split
  · rename_i hcs
    unfold SentTrue at h ⊢
    have hmem : c ∈ s.cells ∩ M := Finset.mem_inter.mpr ⟨hcs, hc⟩
    have : s.cells.erase c ∩ M = (s.cells ∩ M).erase c := by
      ext x
      simp only [Finset.mem_inter, Finset.mem_erase]
      tauto
    have hcard : ((s.cells ∩ M).erase c).card = (s.cells ∩ M).card - 1 :=
      Finset.card_erase_of_mem hmem
    have hpos : 1 ≤ (s.cells ∩ M).card := Finset.card_pos.mpr ⟨c, hmem⟩
    simp only [this, hcard]
    omega
  · exact h

theorem collectSafes_not_mine {M : Finset Cell} {k : List Sentence} {c : Cell}
    (ht : ∀ s ∈ k, SentTrue M s) (hc : c ∈ collectSafes k) : c ∉ M := by
  rw [mem_collectSafes] at hc
  obtain ⟨s, hs, h0, hcs⟩ := hc
  exact sentTrue_count_zero (ht s hs) h0 c hcs

theorem collectMines_mine {M : Finset Cell} {k : List Sentence} {c : Cell}
    (ht : ∀ s ∈ k, SentTrue M s) (hc : c ∈ collectMines k) : c ∈ M := by
  rw [mem_collectMines] at hc
  obtain ⟨s, hs, hfull, hcs⟩ := hc
  exact sentTrue_count_full (ht s hs) hfull c hcs

/-! ### EngineInv preservation under the mark operations -/

theorem engineInv_mark_safe {M : Finset Cell} {ai : MinesweeperAI} {c : Cell}
    (h : EngineInv M ai) (hc : c ∉ M) : EngineInv M (ai.mark_safe c) := by
  obtain ⟨ht, hm, hs⟩ := h
  refine ⟨?_, hm, ?_⟩
  · intro s hsm
    rw [MinesweeperAI.mark_safe] at hsm
    simp only [List.mem_map] at hsm
    obtain ⟨s0, hs0, rfl⟩ := hsm
    exact sentTrue_mark_safe (ht s0 hs0) hc
  · intro x hx
    rw [MinesweeperAI.mark_safe] at hx
    simp only [Finset.mem_insert] at hx
    rcases hx with rfl | hx
    · exact hc
    · exact hs x hx

theorem engineInv_mark_mine {M : Finset Cell} {ai : MinesweeperAI} {c : Cell}
    (h : EngineInv M ai) (hc : c ∈ M) : EngineInv M (ai.mark_mine c) := by
  obtain ⟨ht, hm, hs⟩ := h
  refine ⟨?_, ?_, hs⟩
  · intro s hsm
    rw [MinesweeperAI.mark_mine] at hsm
    simp only [List.mem_map] at hsm
    obtain ⟨s0, hs0, rfl⟩ := hsm
    exact sentTrue_mark_mine (ht s0 hs0) hc
  · intro x hx
    rw [MinesweeperAI.mark_mine] at hx
    simp only [Finset.mem_insert] at hx
    rcases hx with rfl | hx
    · exact hc
    · exact hm hx

theorem engineInv_markSafeList {M : Finset Cell} :
    ∀ (l : List Cell) (ai : MinesweeperAI), EngineInv M ai → (∀ c ∈ l, c ∉ M) →
      EngineInv M (markSafeList ai l) := by
  intro l
  induction l with
  | nil => intro ai h _; exact h
  | cons c t ih =>
    intro ai h hl
    exact ih (ai.mark_safe c)
      (engineInv_mark_safe h (hl c (List.mem_cons_self c t)))
      (fun x hx => hl x (List.mem_cons_of_mem c hx))

theorem engineInv_markMineList {M : Finset Cell} :
    ∀ (l : List Cell) (ai : MinesweeperAI), EngineInv M ai → (∀ c ∈ l, c ∈ M) →
      EngineInv M (markMineList ai l) := by
  intro l
  induction l with
  | nil => intro ai h _; exact h
  | cons c t ih =>
    intro ai h hl
    exact ih (ai.mark_mine c)
      (engineInv_mark_mine h (hl c (List.mem_cons_self c t)))
      (fun x hx => hl x (List.mem_cons_of_mem c hx))

/-! ### The unknown-cell mass measure -/

theorem massK_nil : massK [] = 0 := rfl

theorem massK_cons (s : Sentence) (t : List Sentence) :
    massK (s :: t) = s.cells.card + massK t := by
  unfold massK
  rw [List.map_cons, List.sum_cons]

theorem massK_append (a b : List Sentence) : massK (a ++ b) = massK a + massK b := by
  unfold massK
  rw [List.map_append, List.sum_append]

theorem massK_perm {l1 l2 : List Sentence} (h : l1.Perm l2) : massK l1 = massK l2 := by
  unfold massK
  exact (h.map (fun s => s.cells.card)).sum_eq

theorem massK_erase_of_mem {b : Sentence} {l : List Sentence} (h : b ∈ l) :
    massK (l.erase b) + b.cells.card = massK l := by
  have hp := List.perm_cons_erase h
  rw [massK_perm hp, massK_cons]
  omega

theorem massK_filter_le (p : Sentence → Bool) (l : List Sentence) :
    massK (l.filter p) ≤ massK l := by
  induction l with
  | nil => exact Nat.le_refl 0
  | cons s t ih =>
    rw [List.filter_cons]
    split
    · rw [massK_cons, massK_cons]
      omega
    · rw [massK_cons]
      omega

theorem massK_map_le (g : Sentence → Sentence)
    (hg : ∀ s, (g s).cells.card ≤ s.cells.card) :
    ∀ l : List Sentence, massK (l.map g) ≤ massK l := by
  intro l
  induction l with
  | nil => exact Nat.le_refl 0
  | cons s t ih =>
    rw [List.map_cons, massK_cons, massK_cons]
    have := hg s
    omega

theorem massK_map_lt (g : Sentence → Sentence)
    (hg : ∀ s, (g s).cells.card ≤ s.cells.card) {s0 : Sentence}
    (hlt : (g s0).cells.card < s0.cells.card) :
    ∀ l : List Sentence, s0 ∈ l → massK (l.map g) < massK l := by
  intro l
  induction l with
  | nil => intro h; exact absurd h (List.not_mem_nil s0)
  | cons s t ih =>
    intro hmem
    rw [List.map_cons, massK_cons, massK_cons]
    rcases List.mem_cons.mp hmem with rfl | hmem
    · have := massK_map_le g hg t
      omega
    · have := hg s
      have := ih hmem
      omega

theorem mark_safe_card_le (c : Cell) (s : Sentence) :
    (s.mark_safe c).cells.card ≤ s.cells.card := by
  unfold Sentence.mark_safe
  split
  · exact Finset.card_erase_le
  · exact Nat.le_refl _

theorem mark_mine_card_le (c : Cell) (s : Sentence) :
    (s.mark_mine c).cells.card ≤ s.cells.card := by
  unfold Sentence.mark_mine
  split
  · exact Finset.card_erase_le
  · exact Nat.le_refl _

theorem massAI_mark_safe_le (ai : MinesweeperAI) (c : Cell) :
    massAI (ai.mark_safe c) ≤ massAI ai :=
  massK_map_le _ (mark_safe_card_le c) ai.knowledge

theorem massAI_mark_mine_le (ai : MinesweeperAI) (c : Cell) :
    massAI (ai.mark_mine c) ≤ massAI ai :=
  massK_map_le _ (mark_mine_card_le c) ai.knowledge

theorem massAI_mark_safe_lt {ai : MinesweeperAI} {c : Cell}
    (h : ∃ s ∈ ai.knowledge, c ∈ s.cells) : massAI (ai.mark_safe c) < massAI ai := by
  obtain ⟨s0, hs0, hc⟩ := h
  refine massK_map_lt _ (mark_safe_card_le c) ?_ ai.knowledge hs0
  unfold Sentence.mark_safe
  rw [if_pos hc]
  exact Finset.card_erase_lt_of_mem hc

theorem massAI_mark_mine_lt {ai : MinesweeperAI} {c : Cell}
    (h : ∃ s ∈ ai.knowledge, c ∈ s.cells) : massAI (ai.mark_mine c) < massAI ai := by
  obtain ⟨s0, hs0, hc⟩ := h
  refine massK_map_lt _ (mark_mine_card_le c) ?_ ai.knowledge hs0
  unfold Sentence.mark_mine
  rw [if_pos hc]
  exact Finset.card_erase_lt_of_mem hc

theorem massAI_markSafeList_le : ∀ (l : List Cell) (ai : MinesweeperAI),
    massAI (markSafeList ai l) ≤ massAI ai := by
  intro l
  induction l with
  | nil => intro ai; exact Nat.le_refl _
  | cons c t ih =>
    intro ai
    exact (ih (ai.mark_safe c)).trans (massAI_mark_safe_le ai c)

theorem massAI_markMineList_le : ∀ (l : List Cell) (ai : MinesweeperAI),
    massAI (markMineList ai l) ≤ massAI ai := by
  intro l
  induction l with
  | nil => intro ai; exact Nat.le_refl _
  | cons c t ih =>
    intro ai
    exact (ih (ai.mark_mine c)).trans (massAI_mark_mine_le ai c)

theorem mark_safe_keeps_other (a c : Cell) (hne : a ≠ c) (s : Sentence)
    (h : c ∈ s.cells) : c ∈ (s.mark_safe a).cells := by
  unfold Sentence.mark_safe
  split
  · exact Finset.mem_erase.mpr ⟨fun hc => absurd hc.symm hne, h⟩
  · exact h

theorem mark_mine_keeps_other (a c : Cell) (hne : a ≠ c) (s : Sentence)
    (h : c ∈ s.cells) : c ∈ (s.mark_mine a).cells := by
  unfold Sentence.mark_mine
  split
  · exact Finset.mem_erase.mpr ⟨fun hc => absurd hc.symm hne, h⟩
  · exact h

theorem massAI_markSafeList_lt : ∀ (l : List Cell) (ai : MinesweeperAI) (c : Cell),
    c ∈ l → (∃ s ∈ ai.knowledge, c ∈ s.cells) →
    massAI (markSafeList ai l) < massAI ai := by
  intro l
  induction l with
  | nil => intro ai c h; exact absurd h (List.not_mem_nil c)
  | cons a t ih =>
    intro ai c hc hw
    by_cases hac : a = c
    · subst hac
      calc massAI (markSafeList (ai.mark_safe a) t) ≤ massAI (ai.mark_safe a) :=
            massAI_markSafeList_le t _
        _ < massAI ai := massAI_mark_safe_lt hw
    · rcases List.mem_cons.mp hc with rfl | hct
      · exact absurd rfl hac
      · obtain ⟨s0, hs0, hcs0⟩ := hw
        have hw' : ∃ s ∈ (ai.mark_safe a).knowledge, c ∈ s.cells := by
          refine ⟨s0.mark_safe a, ?_, mark_safe_keeps_other a c hac s0 hcs0⟩
          rw [MinesweeperAI.mark_safe]
          exact List.mem_map_of_mem _ hs0
        calc massAI (markSafeList (ai.mark_safe a) t) < massAI (ai.mark_safe a) :=
              ih (ai.mark_safe a) c hct hw'
          _ ≤ massAI ai := massAI_mark_safe_le ai a

theorem massAI_markMineList_lt : ∀ (l : List Cell) (ai : MinesweeperAI) (c : Cell),
    c ∈ l → (∃ s ∈ ai.knowledge, c ∈ s.cells) →
    massAI (markMineList ai l) < massAI ai := by
  intro l
  induction l with
  | nil => intro ai c h; exact absurd h (List.not_mem_nil c)
  | cons a t ih =>
    intro ai c hc hw
    by_cases hac : a = c
    · subst hac
      calc massAI (markMineList (ai.mark_mine a) t) ≤ massAI (ai.mark_mine a) :=
            massAI_markMineList_le t _
        _ < massAI ai := massAI_mark_mine_lt hw
    · rcases List.mem_cons.mp hc with rfl | hct
      · exact absurd rfl hac
      · obtain ⟨s0, hs0, hcs0⟩ := hw
        have hw' : ∃ s ∈ (ai.mark_mine a).knowledge, c ∈ s.cells := by
          refine ⟨s0.mark_mine a, ?_, mark_mine_keeps_other a c hac s0 hcs0⟩
          rw [MinesweeperAI.mark_mine]
          exact List.mem_map_of_mem _ hs0
        calc massAI (markMineList (ai.mark_mine a) t) < massAI (ai.mark_mine a) :=
              ih (ai.mark_mine a) c hct hw'
          _ ≤ massAI ai := massAI_mark_mine_le ai a

/-! ### Subset resolution preserves truth -/

theorem sentTrue_resolution {M : Finset Cell} {s1 s2 : Sentence} (h1 : SentTrue M s1)
    (h2 : SentTrue M s2) (hsub : s1.cells ⊆ s2.cells) :
    SentTrue M (Sentence.mk (s2.cells \ s1.cells) (s2.count - s1.count)) := by
  unfold SentTrue at h1 h2 ⊢
  simp only
  have hset : (s2.cells \ s1.cells) ∩ M = (s2.cells ∩ M) \ (s1.cells ∩ M) := by
    ext x
    simp only [Finset.mem_inter, Finset.mem_sdiff]
    constructor
    · rintro ⟨⟨h2x, h1x⟩, hM⟩
      exact ⟨⟨h2x, hM⟩, fun hx => h1x hx.1⟩
    · rintro ⟨⟨h2x, hM⟩, hnx⟩
      exact ⟨⟨h2x, fun h1x => hnx ⟨h1x, hM⟩⟩, hM⟩
  have hsub2 : s1.cells ∩ M ⊆ s2.cells ∩ M := by
    intro x hx
    rw [Finset.mem_inter] at hx ⊢
    exact ⟨hsub hx.1, hx.2⟩
  rw [hset, Finset.card_sdiff hsub2]
  have hle := Finset.card_le_card hsub2
  omega

/-! ### The inner loop of the subset-resolution pass -/

theorem innerLoopF_length : ∀ (f : ℕ) (s1 : Sentence) (j : ℕ) (k : List Sentence)
    (c : Bool) {k' : List Sentence} {c' : Bool},
    innerLoopF f s1 j k c = some (k', c') → k'.length = k.length := by
  intro f
  induction f with
  | zero =>
    intro s1 j k c k' c' h
    simp only [innerLoopF] at h
    split at h
    · simp at h
    · simp only [Option.some.injEq, Prod.mk.injEq] at h
      obtain ⟨rfl, rfl⟩ := h
      rfl
  | succ f ih =>
    intro s1 j k c k' c' h
    simp only [innerLoopF] at h
    split at h
    · rename_i hj
      split at h
      · exact ih _ _ _ _ h
      · split at h
        · rename_i hne hsub
          have hlen := ih _ _ _ _ h
          have hmem : k.get ⟨j, hj⟩ ∈
              k ++ [Sentence.mk ((k.get ⟨j, hj⟩).cells \ s1.cells)
                ((k.get ⟨j, hj⟩).count - s1.count)] :=
            List.mem_append_left _ (k.get_mem j hj)
          rw [List.length_erase_of_mem hmem] at hlen
          simp only [List.length_append, List.length_singleton] at hlen
          omega
        · exact ih _ _ _ _ h
    · simp only [Option.some.injEq, Prod.mk.injEq] at h
      obtain ⟨rfl, rfl⟩ := h
      rfl

theorem innerLoopF_isSome : ∀ (f : ℕ) (s1 : Sentence) (j : ℕ) (k : List Sentence)
    (c : Bool), k.length ≤ j + f → (innerLoopF f s1 j k c).isSome = true := by
  intro f
  induction f with
  | zero =>
    intro s1 j k c hle
    simp only [innerLoopF]
    split
    · omega
    · rfl
  | succ f ih =>
    intro s1 j k c hle
    simp only [innerLoopF]
    split
    · rename_i hj
      split
      · exact ih _ _ _ _ (by omega)
      · split
        · rename_i hne hsub
          refine ih _ _ _ _ ?_
          have hmem : k.get ⟨j, hj⟩ ∈
              k ++ [Sentence.mk ((k.get ⟨j, hj⟩).cells \ s1.cells)
                ((k.get ⟨j, hj⟩).count - s1.count)] :=
            List.mem_append_left _ (k.get_mem j hj)
          rw [List.length_erase_of_mem hmem]
          simp only [List.length_append, List.length_singleton]
          omega
        · exact ih _ _ _ _ (by omega)
    · rfl

theorem innerLoopF_massK_le : ∀ (f : ℕ) (s1 : Sentence) (j : ℕ) (k : List Sentence)
    (c : Bool) {k' : List Sentence} {c' : Bool},
    innerLoopF f s1 j k c = some (k', c') → massK k' ≤ massK k := by
  intro f
  induction f with
  | zero =>
    intro s1 j k c k' c' h
    simp only [innerLoopF] at h
    split at h
    · simp at h
    · simp only [Option.some.injEq, Prod.mk.injEq] at h
      obtain ⟨rfl, rfl⟩ := h
      exact Nat.le_refl _
  | succ f ih =>
    intro s1 j k c k' c' h
    simp only [innerLoopF] at h
    split at h
    · rename_i hj
      split at h
      · exact ih _ _ _ _ h
      · split at h
        · rename_i hne hsub
          have hrec := ih _ _ _ _ h
          have hmem : k.get ⟨j, hj⟩ ∈
              k ++ [Sentence.mk ((k.get ⟨j, hj⟩).cells \ s1.cells)
                ((k.get ⟨j, hj⟩).count - s1.count)] :=
            List.mem_append_left _ (k.get_mem j hj)
          have herase := massK_erase_of_mem hmem
          rw [massK_append, massK_cons, massK_nil] at herase
          have hcard : ((k.get ⟨j, hj⟩).cells \ s1.cells).card ≤
              (k.get ⟨j, hj⟩).cells.card :=
            Finset.card_le_card (Finset.sdiff_subset)
          simp only at herase
          omega
        · exact ih _ _ _ _ h
    · simp only [Option.some.injEq, Prod.mk.injEq] at h
      obtain ⟨rfl, rfl⟩ := h
      exact Nat.le_refl _

theorem innerLoopF_sentTrue {M : Finset Cell} {s1 : Sentence} (hs1 : SentTrue M s1) :
    ∀ (f : ℕ) (j : ℕ) (k : List Sentence) (c : Bool) {k' : List Sentence} {c' : Bool},
    (∀ s ∈ k, SentTrue M s) → innerLoopF f s1 j k c = some (k', c') →
    ∀ s ∈ k', SentTrue M s := by
  intro f
  induction f with
  | zero =>
    intro j k c k' c' ht h
    simp only [innerLoopF] at h
    split at h
    · simp at h
    · simp only [Option.some.injEq, Prod.mk.injEq] at h
      obtain ⟨rfl, rfl⟩ := h
      exact ht
  | succ f ih =>
    intro j k c k' c' ht h
    simp only [innerLoopF] at h
    split at h
    · rename_i hj
      split at h
      · exact ih _ _ _ ht h
      · split at h
        · rename_i hne hsub
          refine ih _ _ _ ?_ h
          intro s hs
          rcases List.mem_append.mp (List.mem_of_mem_erase hs) with hs | hs
          · exact ht s hs
          · rw [List.mem_singleton] at hs
            subst hs
            exact sentTrue_resolution hs1 (ht _ (k.get_mem j hj)) hsub
        · exact ih _ _ _ ht h
    · simp only [Option.some.injEq, Prod.mk.injEq] at h
      obtain ⟨rfl, rfl⟩ := h
      exact ht

theorem innerLoopF_inv {M : Finset Cell} {s1 : Sentence} (hs1t : SentTrue M s1)
    (hs1n : s1.cells ≠ ∅) :
    ∀ (f : ℕ) (j : ℕ) (k : List Sentence) (c : Bool) {k' : List Sentence} {c' : Bool},
    (∀ s ∈ k, SentTrue M s ∧ s.cells ≠ ∅) → innerLoopF f s1 j k c = some (k', c') →
    (∀ s ∈ k', SentTrue M s ∧ s.cells ≠ ∅) ∧
      (c = false → c' = true → massK k' < massK k) := by
  intro f
  induction f with
  | zero =>
    intro j k c k' c' ht h
    simp only [innerLoopF] at h
    split at h
    · simp at h
    · simp only [Option.some.injEq, Prod.mk.injEq] at h
      obtain ⟨rfl, rfl⟩ := h
      exact ⟨ht, fun hc hc' => absurd (hc ▸ hc') (by simp)⟩
  | succ f ih =>
    intro j k c k' c' ht h
    simp only [innerLoopF] at h
    split at h
    · rename_i hj
      split at h
      · exact ih _ _ _ ht h
      · split at h
        · rename_i hne hsub
          have hs2 := ht _ (k.get_mem j hj)
          have hnst : SentTrue M (Sentence.mk ((k.get ⟨j, hj⟩).cells \ s1.cells)
              ((k.get ⟨j, hj⟩).count - s1.count)) :=
            sentTrue_resolution hs1t hs2.1 hsub
          have hnsn : (k.get ⟨j, hj⟩).cells \ s1.cells ≠ ∅ := by
            intro hempty
            have hsub2 : (k.get ⟨j, hj⟩).cells ⊆ s1.cells :=
              Finset.sdiff_eq_empty_iff_subset.mp hempty
            have hcells : s1.cells = (k.get ⟨j, hj⟩).cells :=
              Finset.Subset.antisymm hsub hsub2
            have hcount : s1.count = (k.get ⟨j, hj⟩).count := by
              have e1 := hs1t
              have e2 := hs2.1
              unfold SentTrue at e1 e2
              rw [hcells] at e1
              omega
            apply hne
            cases s1 with
            | mk cs ct =>
              cases hk : k.get ⟨j, hj⟩ with
              | mk ds dt =>
                rw [hk] at hcells hcount
                simp only at hcells hcount
                simp [hcells, hcount]
          have hinv2 : ∀ s ∈ (k ++ [Sentence.mk ((k.get ⟨j, hj⟩).cells \ s1.cells)
              ((k.get ⟨j, hj⟩).count - s1.count)]).erase (k.get ⟨j, hj⟩),
              SentTrue M s ∧ s.cells ≠ ∅ := by
            intro s hs
            rcases List.mem_append.mp (List.mem_of_mem_erase hs) with hs | hs
            · exact ht s hs
            · rw [List.mem_singleton] at hs
              subst hs
              exact ⟨hnst, hnsn⟩
          have hmem : k.get ⟨j, hj⟩ ∈
              k ++ [Sentence.mk ((k.get ⟨j, hj⟩).cells \ s1.cells)
                ((k.get ⟨j, hj⟩).count - s1.count)] :=
            List.mem_append_left _ (k.get_mem j hj)
          have herase := massK_erase_of_mem hmem
          rw [massK_append, massK_cons, massK_nil] at herase
          have hcard : ((k.get ⟨j, hj⟩).cells \ s1.cells).card =
              (k.get ⟨j, hj⟩).cells.card - s1.cells.card :=
            Finset.card_sdiff hsub
          have hcardle := Finset.card_le_card hsub
          have hpos : 0 < s1.cells.card :=
            Finset.card_pos.mpr (Finset.nonempty_iff_ne_empty.mpr hs1n)
          have hlt : massK ((k ++ [Sentence.mk ((k.get ⟨j, hj⟩).cells \ s1.cells)
              ((k.get ⟨j, hj⟩).count - s1.count)]).erase (k.get ⟨j, hj⟩)) <
              massK k := by
            simp only at herase
            omega
          have hrec := ih _ _ _ hinv2 h
          have hle := innerLoopF_massK_le _ _ _ _ _ h
          exact ⟨hrec.1, fun _ _ => Nat.lt_of_le_of_lt hle hlt⟩
        · exact ih _ _ _ ht h
    · simp only [Option.some.injEq, Prod.mk.injEq] at h
      obtain ⟨rfl, rfl⟩ := h
      exact ⟨ht, fun hc hc' => absurd (hc ▸ hc') (by simp)⟩

/-! ### The outer loop of the subset-resolution pass -/

theorem outerLoopF_length : ∀ (f i : ℕ) (k : List Sentence) (c : Bool)
    {k' : List Sentence} {c' : Bool},
    outerLoopF f i k c = some (k', c') → k'.length = k.length := by
  intro f
  induction f with
  | zero =>
    intro i k c k' c' h
    simp only [outerLoopF] at h
    split at h
    · simp at h
    · simp only [Option.some.injEq, Prod.mk.injEq] at h
      obtain ⟨rfl, rfl⟩ := h
      rfl
  | succ f ih =>
    intro i k c k' c' h
    simp only [outerLoopF] at h
    split at h
    · rename_i hi
      split at h
      · simp at h
      · rename_i k1 c1 hinner
        have h1 := innerLoopF_length _ _ _ _ _ hinner
        have h2 := ih _ _ _ h
        omega
    · simp only [Option.some.injEq, Prod.mk.injEq] at h
      obtain ⟨rfl, rfl⟩ := h
      rfl

theorem outerLoopF_isSome : ∀ (f i : ℕ) (k : List Sentence) (c : Bool),
    k.length ≤ i + f → (outerLoopF f i k c).isSome = true := by
  intro f
  induction f with
  | zero =>
    intro i k c hle
    simp only [outerLoopF]
    split
    · omega
    · rfl
  | succ f ih =>
    intro i k c hle
    simp only [outerLoopF]
    split
    · rename_i hi
      have hsome := innerLoopF_isSome k.length (k.get ⟨i, hi⟩) 0 k c (by omega)
      obtain ⟨⟨k1, c1⟩, hinner⟩ := Option.isSome_iff_exists.mp hsome
      rw [hinner]
      refine ih _ _ _ ?_
      have := innerLoopF_length _ _ _ _ _ hinner
      omega
    · rfl

theorem outerLoopF_massK_le : ∀ (f i : ℕ) (k : List Sentence) (c : Bool)
    {k' : List Sentence} {c' : Bool},
    outerLoopF f i k c = some (k', c') → massK k' ≤ massK k := by
  intro f
  induction f with
  | zero =>
    intro i k c k' c' h
    simp only [outerLoopF] at h
    split at h
    · simp at h
    · simp only [Option.some.injEq, Prod.mk.injEq] at h
      obtain ⟨rfl, rfl⟩ := h
      exact Nat.le_refl _
  | succ f ih =>
    intro i k c k' c' h
    simp only [outerLoopF] at h
    split at h
    · rename_i hi
      split at h
      · simp at h
      · rename_i k1 c1 hinner
        exact (ih _ _ _ h).trans (innerLoopF_massK_le _ _ _ _ _ hinner)
    · simp only [Option.some.injEq, Prod.mk.injEq] at h
      obtain ⟨rfl, rfl⟩ := h
      exact Nat.le_refl _

theorem outerLoopF_sentTrue {M : Finset Cell} : ∀ (f i : ℕ) (k : List Sentence)
    (c : Bool) {k' : List Sentence} {c' : Bool},
    (∀ s ∈ k, SentTrue M s) → outerLoopF f i k c = some (k', c') →
    ∀ s ∈ k', SentTrue M s := by
  intro f
  induction f with
  | zero =>
    intro i k c k' c' ht h
    simp only [outerLoopF] at h
    split at h
    · simp at h
    · simp only [Option.some.injEq, Prod.mk.injEq] at h
      obtain ⟨rfl, rfl⟩ := h
      exact ht
  | succ f ih =>
    intro i k c k' c' ht h
    simp only [outerLoopF] at h
    split at h
    · rename_i hi
      split at h
      · simp at h
      · rename_i k1 c1 hinner
        exact ih _ _ _
          (innerLoopF_sentTrue (ht _ (k.get_mem i hi)) _ _ _ _ ht hinner) h
    · simp only [Option.some.injEq, Prod.mk.injEq] at h
      obtain ⟨rfl, rfl⟩ := h
      exact ht

theorem outerLoopF_inv {M : Finset Cell} : ∀ (f i : ℕ) (k : List Sentence) (c : Bool)
    {k' : List Sentence} {c' : Bool},
    (∀ s ∈ k, SentTrue M s ∧ s.cells ≠ ∅) → outerLoopF f i k c = some (k', c') →
    (∀ s ∈ k', SentTrue M s ∧ s.cells ≠ ∅) ∧
      (c = false → c' = true → massK k' < massK k) := by
  intro f
  induction f with
  | zero =>
    intro i k c k' c' ht h
    simp only [outerLoopF] at h
    split at h
    · simp at h
    · simp only [Option.some.injEq, Prod.mk.injEq] at h
      obtain ⟨rfl, rfl⟩ := h
      exact ⟨ht, fun hc hc' => absurd (hc ▸ hc') (by simp)⟩
  | succ f ih =>
    intro i k c k' c' ht h
    simp only [outerLoopF] at h
    split at h
    · rename_i hi
      split at h
      · simp at h
      · rename_i k1 c1 hinner
        have hs1 := ht _ (k.get_mem i hi)
        have hinner_inv := innerLoopF_inv hs1.1 hs1.2 _ _ _ _ ht hinner
        have hrec := ih _ _ _ hinner_inv.1 h
        refine ⟨hrec.1, ?_⟩
        intro hc hc'
        subst hc
        cases hc1 : c1 with
        | true =>
          have h1 := hinner_inv.2 rfl hc1
          have h2 := outerLoopF_massK_le _ _ _ _ h
          omega
        | false =>
          have h1 := hrec.2 hc1 hc'
          have h2 := innerLoopF_massK_le _ _ _ _ _ hinner
          omega
    · simp only [Option.some.injEq, Prod.mk.injEq] at h
      obtain ⟨rfl, rfl⟩ := h
      exact ⟨ht, fun hc hc' => absurd (hc ▸ hc') (by simp)⟩

/-! ### The sweep: totality, invariant preservation, strict mass decrease -/

theorem pairwisePass_isSome (k : List Sentence) (c : Bool) :
    (pairwisePass k c).isSome = true :=
  outerLoopF_isSome _ _ _ _ (by omega)

theorem sweep_isSome (ai : MinesweeperAI) : ai.sweep.isSome = true := by
  simp only [MinesweeperAI.sweep]
  obtain ⟨⟨k', c'⟩, hp⟩ := Option.isSome_iff_exists.mp (pairwisePass_isSome
    (markMineList (markSafeList
        { ai with knowledge := removeEmptySentences ai.knowledge }
        (sortFin (collectSafes ai.knowledge)))
      (sortFin (collectMines ai.knowledge))).knowledge
    (decide (collectSafes ai.knowledge ≠ ∅ ∨ collectMines ai.knowledge ≠ ∅)))
  rw [hp]
  rfl

theorem massK_removeEmpty_le (k : List Sentence) :
    massK (removeEmptySentences k) ≤ massK k := by
  unfold removeEmptySentences
  exact massK_filter_le _ k

theorem engineInv_removeEmpty {M : Finset Cell} {ai : MinesweeperAI}
    (hinv : EngineInv M ai) :
    EngineInv M { ai with knowledge := removeEmptySentences ai.knowledge } := by
  refine ⟨?_, hinv.2.1, hinv.2.2⟩
  intro s hs
  exact hinv.1 s (mem_removeEmptySentences.mp hs).1

theorem sweep_engineInv {M : Finset Cell} {ai ai' : MinesweeperAI} {ch : Bool}
    (hinv : EngineInv M ai) (h : ai.sweep = some (ai', ch)) : EngineInv M ai' := by
  simp only [MinesweeperAI.sweep] at h
  split at h
  · simp at h
  · rename_i k' ch' hp
    simp only [Option.some.injEq, Prod.mk.injEq] at h
    obtain ⟨rfl, rfl⟩ := h.symm
    have hinv1 := engineInv_removeEmpty hinv
    have hinv2 := engineInv_markSafeList _ _ hinv1
      (fun c hc => collectSafes_not_mine hinv.1 (mem_sortFin.mp hc))
    have hinv3 := engineInv_markMineList _ _ hinv2
      (fun c hc => collectMines_mine hinv.1 (mem_sortFin.mp hc))
    unfold pairwisePass at hp
    refine ⟨outerLoopF_sentTrue _ _ _ _ hinv3.1 hp, hinv3.2.1, hinv3.2.2⟩

theorem sweep_strict {M : Finset Cell} {ai ai' : MinesweeperAI}
    (hinv : EngineInv M ai) (h : ai.sweep = some (ai', true)) :
    massAI ai' < massAI ai := by
  simp only [MinesweeperAI.sweep] at h
  split at h
  · simp at h
  · rename_i k' ch' hp
    simp only [Option.some.injEq, Prod.mk.injEq] at h
    obtain ⟨hai, hch⟩ := h
    subst hai
    show massK k' < massAI ai
    unfold pairwisePass at hp
    have hple := outerLoopF_massK_le _ _ _ _ hp
    by_cases hse : collectSafes ai.knowledge = ∅
    · by_cases hme : collectMines ai.knowledge = ∅
      · -- no marking at all; the pairwise pass itself must have changed
        rw [hse, hme, sortFin_empty] at hp
        have hflag : (decide ((∅ : Finset Cell) ≠ ∅ ∨ (∅ : Finset Cell) ≠ ∅)) = false := by
          simp
        rw [hflag] at hp
        simp only [markSafeList, markMineList, List.foldl_nil] at hp
        have hne : ∀ s ∈ removeEmptySentences ai.knowledge,
            SentTrue M s ∧ s.cells ≠ ∅ := by
          intro s hs
          obtain ⟨hsk, hsne⟩ := mem_removeEmptySentences.mp hs
          refine ⟨hinv.1 s hsk, fun hec => hsne ⟨hec, ?_⟩⟩
          exact sentTrue_empty_cells (hinv.1 s hsk) hec
        have hstrict := (outerLoopF_inv _ _ _ _ hne hp).2 rfl hch
        exact lt_of_lt_of_le hstrict (massK_removeEmpty_le ai.knowledge)
      · -- some mine is collected: marking it strictly shrinks the mass
        obtain ⟨c, hc⟩ := Finset.nonempty_iff_ne_empty.mpr hme
        obtain ⟨s, hsk, hfull, hcs⟩ := mem_collectMines.mp hc
        have hsmem : s ∈ removeEmptySentences ai.knowledge :=
          mem_removeEmptySentences.mpr ⟨hsk, fun hec => by
            rw [hec.1] at hcs
            exact Finset.not_mem_empty c hcs⟩
        have hsafenil : markSafeList
            { ai with knowledge := removeEmptySentences ai.knowledge }
            (sortFin (collectSafes ai.knowledge)) =
            { ai with knowledge := removeEmptySentences ai.knowledge } := by
          rw [hse, sortFin_empty]
          rfl
        have hwit : ∃ s0 ∈
            ({ ai with knowledge := removeEmptySentences ai.knowledge } :
              MinesweeperAI).knowledge, c ∈ s0.cells := ⟨s, hsmem, hcs⟩
        have hlt := massAI_markMineList_lt (sortFin (collectMines ai.knowledge)) _
          c (mem_sortFin.mpr hc) hwit
        have hple2 : massK k' ≤ massAI (markMineList
            { ai with knowledge := removeEmptySentences ai.knowledge }
            (sortFin (collectMines ai.knowledge))) := by
          rw [hsafenil] at hple
          exact hple
        exact lt_of_le_of_lt hple2
          (lt_of_lt_of_le hlt (massK_removeEmpty_le ai.knowledge))
    · -- some safe is collected: marking it strictly shrinks the mass
      obtain ⟨c, hc⟩ := Finset.nonempty_iff_ne_empty.mpr hse
      obtain ⟨s, hsk, h0, hcs⟩ := mem_collectSafes.mp hc
      have hsmem : s ∈ removeEmptySentences ai.knowledge :=
        mem_removeEmptySentences.mpr ⟨hsk, fun hec => by
          rw [hec.1] at hcs
          exact Finset.not_mem_empty c hcs⟩
      have hwit : ∃ s0 ∈
          ({ ai with knowledge := removeEmptySentences ai.knowledge } :
            MinesweeperAI).knowledge, c ∈ s0.cells := ⟨s, hsmem, hcs⟩
      have hlt := massAI_markSafeList_lt (sortFin (collectSafes ai.knowledge)) _
        c (mem_sortFin.mpr hc) hwit
      have hple2 : massK k' ≤ massAI (markSafeList
          { ai with knowledge := removeEmptySentences ai.knowledge }
          (sortFin (collectSafes ai.knowledge))) :=
        hple.trans (massAI_markMineList_le _ _)
      exact lt_of_le_of_lt hple2
        (lt_of_lt_of_le hlt (massK_removeEmpty_le ai.knowledge))

/-! ### The while loop: invariant preservation and termination -/

theorem inferLoop_engineInv {M : Finset Cell} : ∀ (f : ℕ) (ai ai' : MinesweeperAI),
    EngineInv M ai → inferLoop f ai = some ai' → EngineInv M ai' := by
  intro f
  induction f with
  | zero =>
    intro ai ai' hinv h
    simp [inferLoop] at h
  | succ f ih =>
    intro ai ai' hinv h
    simp only [inferLoop] at h
    split at h
    · simp at h
    · rename_i ai1 changed hs
      cases changed with
      | true => exact ih ai1 ai' (sweep_engineInv hinv hs) (by simpa using h)
      | false =>
        simp only [Bool.false_eq_true, if_false, Option.some.injEq] at h
        subst h
        exact sweep_engineInv hinv hs

theorem inferLoop_terminates {M : Finset Cell} {ai : MinesweeperAI}
    (hinv : EngineInv M ai) : ∃ f ai', inferLoop f ai = some ai' := by
  have H : ∀ (n : ℕ) (ai : MinesweeperAI), massAI ai = n → EngineInv M ai →
      ∃ f ai', inferLoop f ai = some ai' := by
    intro n
    induction n using Nat.strong_induction_on with
    | _ n ih =>
      intro ai hn hinv2
      obtain ⟨⟨ai1, changed⟩, hs⟩ := Option.isSome_iff_exists.mp (sweep_isSome ai)
      cases changed with
      | false =>
        refine ⟨1, ai1, ?_⟩
        simp only [inferLoop]
        rw [hs]
        simp
      | true =>
        have hlt := sweep_strict hinv2 hs
        obtain ⟨f, ai', hf⟩ :=
          ih (massAI ai1) (by omega) ai1 rfl (sweep_engineInv hinv2 hs)
        refine ⟨f + 1, ai', ?_⟩
        simp only [inferLoop]
        rw [hs]
        simpa using hf
  exact H (massAI ai) ai rfl hinv

/-! ### Geometry of get_surroundings (no bounds assumptions beyond the cell) -/

theorem surr_adjacent {ai : MinesweeperAI} {cell c : Cell}
    (h : c ∈ ai.get_surroundings cell) : adjacentCell cell c := by
  obtain ⟨r, c0⟩ := cell
  obtain ⟨cr, cc⟩ := c
  unfold adjacentCell
  simp only [ne_eq, Prod.mk.injEq]
  simp only [MinesweeperAI.get_surroundings] at h
  split_ifs at h <;>
    simp only [List.mem_append, List.mem_cons, List.not_mem_nil, or_false,
      Prod.mk.injEq] at h <;> omega

theorem surr_complete {ai : MinesweeperAI} {cell c : Cell}
    (hcell : inBoundsCell ai.height ai.width cell)
    (hc : inBoundsCell ai.height ai.width c) (hadj : adjacentCell cell c) :
    c ∈ ai.get_surroundings cell := by
  obtain ⟨r, c0⟩ := cell
  obtain ⟨cr, cc⟩ := c
  obtain ⟨h1, h2, h3, h4⟩ := hcell
  obtain ⟨hb1, hb2, hb3, hb4⟩ := hc
  obtain ⟨hne, ha1, ha2, ha3, ha4⟩ := hadj
  simp only [ne_eq, Prod.mk.injEq] at hne
  simp only [MinesweeperAI.get_surroundings]
  split_ifs <;>
    simp only [List.mem_append, List.mem_cons, List.not_mem_nil, or_false,
      Prod.mk.injEq] <;> omega

theorem surr_nodup (ai : MinesweeperAI) (cell : Cell) :
    (ai.get_surroundings cell).Nodup := by
  obtain ⟨r, c0⟩ := cell
  simp only [MinesweeperAI.get_surroundings]
  split_ifs <;>
    simp only [List.cons_append, List.nil_append, List.nodup_cons, List.mem_cons,
      List.not_mem_nil, or_false, List.nodup_nil, and_true, true_and,
      Prod.mk.injEq, not_or, not_false_eq_true] <;>
    omega

theorem surr_inter {ai : MinesweeperAI} {cell : Cell} {M : Finset Cell}
    (hM : MinesOnBoard ai.height ai.width M)
    (hcell : inBoundsCell ai.height ai.width cell) :
    (ai.get_surroundings cell).toFinset ∩ M =
      M.filter (fun c => adjacentCell cell c) := by
  ext x
  simp only [Finset.mem_inter, List.mem_toFinset, Finset.mem_filter]
  constructor
  · rintro ⟨hx, hxM⟩
    exact ⟨hxM, surr_adjacent hx⟩
  · rintro ⟨hxM, hadj⟩
    exact ⟨surr_complete hcell (hM x hxM) hadj, hxM⟩

/-! ### The observation fold of add_knowledge -/

theorem obsStep_pos {count : ℤ} (hc : ¬ count = 0) (ai : MinesweeperAI)
    (s : Sentence) (a : Cell) :
    obsStep count (ai, s) a =
      (ai, Sentence.mk
        (if a ∉ ai.mines ∧ a ∉ ai.safes then insert a s.cells else s.cells)
        (if a ∈ ai.mines then s.count - 1 else s.count)) := by
  unfold obsStep
  rw [if_neg hc]
  simp only
  split_ifs <;> rfl

theorem obsFold_pos {count : ℤ} (hc : ¬ count = 0) (ai : MinesweeperAI) :
    ∀ (l : List Cell) (S : Finset Cell) (n : ℤ),
      l.foldl (obsStep count) (ai, Sentence.mk S n) =
        (ai, Sentence.mk
          (S ∪ (l.filter (fun c => decide (c ∉ ai.mines ∧ c ∉ ai.safes))).toFinset)
          (n - ((l.filter (fun c => decide (c ∈ ai.mines))).length : ℤ))) := by
  intro l
  induction l with
  | nil =>
    intro S n
    simp
  | cons a t ih =>
    intro S n
    rw [List.foldl_cons, obsStep_pos hc, ih]
    rw [List.filter_cons, List.filter_cons]
    by_cases hm : a ∈ ai.mines
    · rw [if_neg (fun hcon => hcon.1 hm), if_pos hm,
        if_neg (by simp [hm]), if_pos (by simp [hm])]
      simp only [List.length_cons, Prod.mk.injEq, Sentence.mk.injEq, true_and]
      push_cast
      ring
    · by_cases hs : a ∈ ai.safes
      · rw [if_neg (fun hcon => hcon.2 hs), if_neg hm,
          if_neg (by simp [hm, hs]), if_neg (by simp [hm])]
      · rw [if_pos ⟨hm, hs⟩, if_neg hm,
          if_pos (by simp [hm, hs]), if_neg (by simp [hm])]
        simp only [List.toFinset_cons, Prod.mk.injEq, Sentence.mk.injEq, and_true,
          true_and]
        rw [Finset.union_insert, Finset.insert_union]

theorem obsStep_zero (ai : MinesweeperAI) (s : Sentence) (a : Cell) :
    obsStep 0 (ai, s) a =
      if a ∉ ai.safes ∧ a ∉ ai.mines then
        ({ ai with safes := insert a ai.safes },
          Sentence.mk (insert a s.cells) s.count)
      else (ai, s) := by
  unfold obsStep
  rw [if_pos rfl]

theorem obsFold_zero_inv {M : Finset Cell} :
    ∀ (l : List Cell) (ai : MinesweeperAI) (s : Sentence),
      EngineInv M ai → s.count = 0 → (∀ c ∈ s.cells, c ∉ M) → (∀ c ∈ l, c ∉ M) →
      EngineInv M ((l.foldl (obsStep 0) (ai, s)).1) ∧
        ((l.foldl (obsStep 0) (ai, s)).2.count = 0) ∧
        (∀ c ∈ (l.foldl (obsStep 0) (ai, s)).2.cells, c ∉ M) := by
  intro l
  induction l with
  | nil =>
    intro ai s hinv hc0 hcM _
    exact ⟨hinv, hc0, hcM⟩
  | cons a t ih =>
    intro ai s hinv hc0 hcM hl
    rw [List.foldl_cons, obsStep_zero]
    split_ifs with hcond
    · refine ih _ _ ⟨hinv.1, hinv.2.1, ?_⟩ hc0 ?_
        (fun c hc => hl c (List.mem_cons_of_mem a hc))
      · intro x hx
        simp only [Finset.mem_insert] at hx
        rcases hx with rfl | hx
        · exact hl x (List.mem_cons_self x t)
        · exact hinv.2.2 x hx
      · intro x hx
        simp only [Finset.mem_insert] at hx
        rcases hx with rfl | hx
        · exact hl x (List.mem_cons_self x t)
        · exact hcM x hx
    · exact ih _ _ hinv hc0 hcM (fun c hc => hl c (List.mem_cons_of_mem a hc))

/-! ### The observation preamble preserves the invariant -/

theorem observe_engineInv {M : Finset Cell} {ai : MinesweeperAI} {cell : Cell}
    {count : ℤ} (hM : MinesOnBoard ai.height ai.width M) (hinv : EngineInv M ai)
    (hobs : LegalObs M ai cell count) :
    EngineInv M (ai.observe cell count) := by
  obtain ⟨hcellb, hmoves, hcellM, hcount⟩ := hobs
  simp only [MinesweeperAI.observe]
  have hinv1 : EngineInv M
      (({ ai with moves_made := insert cell ai.moves_made } :
        MinesweeperAI).mark_safe cell) :=
    @engineInv_mark_safe M { ai with moves_made := insert cell ai.moves_made }
      cell hinv hcellM
  by_cases hzero : count = 0
  · subst hzero
    have hsurrM : ∀ c ∈ (({ ai with moves_made := insert cell ai.moves_made } :
        MinesweeperAI).mark_safe cell).get_surroundings cell, c ∉ M := by
      intro c hcs hcM
      have hadj : adjacentCell cell c := surr_adjacent hcs
      have hmem : c ∈ M.filter (fun x => adjacentCell cell x) :=
        Finset.mem_filter.mpr ⟨hcM, hadj⟩
      have hcard0 : (M.filter (fun x => adjacentCell cell x)).card = 0 := by omega
      rw [Finset.card_eq_zero] at hcard0
      rw [hcard0] at hmem
      exact Finset.not_mem_empty c hmem
    obtain ⟨hfi, hfc, hfm⟩ := obsFold_zero_inv
      ((({ ai with moves_made := insert cell ai.moves_made } :
        MinesweeperAI).mark_safe cell).get_surroundings cell)
      (({ ai with moves_made := insert cell ai.moves_made } :
        MinesweeperAI).mark_safe cell)
      (Sentence.mk ∅ 0) hinv1 rfl (by simp) hsurrM
    refine ⟨?_, hfi.2.1, hfi.2.2⟩
    intro s hs
    rcases List.mem_append.mp hs with hs | hs
    · exact hfi.1 s hs
    · rw [List.mem_singleton] at hs
      subst hs
      unfold SentTrue
      have hempty : (((((
          { ai with moves_made := insert cell ai.moves_made } :
            MinesweeperAI).mark_safe cell).get_surroundings cell).foldl
          (obsStep 0)
          ((({ ai with moves_made := insert cell ai.moves_made } :
            MinesweeperAI).mark_safe cell), Sentence.mk ∅ 0)).2.cells ∩ M) = ∅ := by
        refine Finset.eq_empty_iff_forall_not_mem.mpr ?_
        intro x hx
        rw [Finset.mem_inter] at hx
        exact hfm x hx.1 hx.2
      rw [hempty, hfc]
      simp
  · rw [obsFold_pos hzero
      (({ ai with moves_made := insert cell ai.moves_made } :
        MinesweeperAI).mark_safe cell)
      ((({ ai with moves_made := insert cell ai.moves_made } :
        MinesweeperAI).mark_safe cell).get_surroundings cell) ∅ count]
    refine ⟨?_, hinv1.2.1, hinv1.2.2⟩
    intro s hs
    rcases List.mem_append.mp hs with hs | hs
    · exact hinv1.1 s hs
    · rw [List.mem_singleton] at hs
      subst hs
      unfold SentTrue
      simp only
      -- abbreviations inside the proof
      have hAM := @surr_inter
        (({ ai with moves_made := insert cell ai.moves_made} :
          MinesweeperAI).mark_safe cell) cell M hM hcellb
      have hFM : ((∅ ∪ (((({ ai with moves_made := insert cell ai.moves_made } :
          MinesweeperAI).mark_safe cell).get_surroundings cell).filter
          (fun c => decide (c ∉ (({ ai with moves_made := insert cell ai.moves_made } :
            MinesweeperAI).mark_safe cell).mines ∧
            c ∉ (({ ai with moves_made := insert cell ai.moves_made } :
            MinesweeperAI).mark_safe cell).safes))).toFinset) ∩ M) =
          (((({ ai with moves_made := insert cell ai.moves_made } :
            MinesweeperAI).mark_safe cell).get_surroundings cell).toFinset ∩ M) \
          (({ ai with moves_made := insert cell ai.moves_made } :
            MinesweeperAI).mark_safe cell).mines := by
        ext x
        simp only [Finset.empty_union, Finset.mem_inter, Finset.mem_sdiff,
          List.mem_toFinset, List.mem_filter, decide_eq_true_eq]
        constructor
        · rintro ⟨⟨hxs, hxm, _⟩, hxM⟩
          exact ⟨⟨hxs, hxM⟩, hxm⟩
        · rintro ⟨⟨hxs, hxM⟩, hxm⟩
          exact ⟨⟨hxs, hxm, fun hsf => hinv1.2.2 x hsf hxM⟩, hxM⟩
      have hndf : ((((({ ai with moves_made := insert cell ai.moves_made } :
          MinesweeperAI).mark_safe cell).get_surroundings cell)).filter
          (fun c => decide (c ∈ (({ ai with moves_made := insert cell ai.moves_made } :
          MinesweeperAI).mark_safe cell).mines))).Nodup :=
        (surr_nodup _ cell).filter _
      have hL : ((((({ ai with moves_made := insert cell ai.moves_made } :
          MinesweeperAI).mark_safe cell).get_surroundings cell)).filter
          (fun c => decide (c ∈ (({ ai with moves_made := insert cell ai.moves_made } :
          MinesweeperAI).mark_safe cell).mines))).length =
          (((({ ai with moves_made := insert cell ai.moves_made } :
            MinesweeperAI).mark_safe cell).get_surroundings cell).toFinset ∩
            (({ ai with moves_made := insert cell ai.moves_made } :
            MinesweeperAI).mark_safe cell).mines).card := by
        rw [← List.toFinset_card_of_nodup hndf]
        congr 1
        ext x
        simp only [List.mem_toFinset, List.mem_filter, decide_eq_true_eq,
          Finset.mem_inter]
      have hsub1 : (((({ ai with moves_made := insert cell ai.moves_made } :
          MinesweeperAI).mark_safe cell).get_surroundings cell).toFinset ∩
          (({ ai with moves_made := insert cell ai.moves_made } :
          MinesweeperAI).mark_safe cell).mines) ⊆
          (((({ ai with moves_made := insert cell ai.moves_made } :
          MinesweeperAI).mark_safe cell).get_surroundings cell).toFinset ∩ M) := by
        intro x hx
        rw [Finset.mem_inter] at hx ⊢
        exact ⟨hx.1, hinv1.2.1 hx.2⟩
      have hsdeq : ((((({ ai with moves_made := insert cell ai.moves_made } :
          MinesweeperAI).mark_safe cell).get_surroundings cell).toFinset ∩ M) \
          (({ ai with moves_made := insert cell ai.moves_made } :
          MinesweeperAI).mark_safe cell).mines) =
          (((({ ai with moves_made := insert cell ai.moves_made } :
          MinesweeperAI).mark_safe cell).get_surroundings cell).toFinset ∩ M) \
          ((((({ ai with moves_made := insert cell ai.moves_made } :
          MinesweeperAI).mark_safe cell).get_surroundings cell).toFinset ∩
          (({ ai with moves_made := insert cell ai.moves_made } :
          MinesweeperAI).mark_safe cell).mines)) := by
        ext x
        simp only [Finset.mem_sdiff, Finset.mem_inter]
        tauto
      have hcards := Finset.card_le_card hsub1
      have hcountA : count = (((((
          { ai with moves_made := insert cell ai.moves_made } :
          MinesweeperAI).mark_safe cell).get_surroundings cell).toFinset ∩ M).card : ℤ) := by
        rw [hAM]
        exact hcount
      rw [hFM, hsdeq, Finset.card_sdiff hsub1]
      omega

/-! ### add_knowledge: invariant preservation and termination -/

theorem add_knowledge_engineInv {M : Finset Cell} {ai ai' : MinesweeperAI}
    {cell : Cell} {count : ℤ} {fuel : ℕ}
    (hM : MinesOnBoard ai.height ai.width M) (hinv : EngineInv M ai)
    (hobs : LegalObs M ai cell count)
    (h : ai.add_knowledge fuel cell count = some ai') : EngineInv M ai' := by
  unfold MinesweeperAI.add_knowledge at h
  exact inferLoop_engineInv fuel _ _ (observe_engineInv hM hinv hobs) h

theorem add_knowledge_terminates {M : Finset Cell} {ai : MinesweeperAI}
    {cell : Cell} {count : ℤ}
    (hM : MinesOnBoard ai.height ai.width M) (hinv : EngineInv M ai)
    (hobs : LegalObs M ai cell count) :
    ∃ fuel ai', ai.add_knowledge fuel cell count = some ai' := by
  obtain ⟨f, ai', hf⟩ := inferLoop_terminates (observe_engineInv hM hinv hobs)
  exact ⟨f, ai', hf⟩

/-! ### Reachable states -/

theorem reach_minesOnBoard {height width : ℤ} {M : Finset Cell} {ai : MinesweeperAI}
    (h : Reach height width M ai) : MinesOnBoard height width M := by
  induction h with
  | start hM => exact hM
  | step _ _ _ ih => exact ih

theorem reach_dims {height width : ℤ} {M : Finset Cell} {ai : MinesweeperAI}
    (h : Reach height width M ai) : ai.height = height ∧ ai.width = width := by
  induction h with
  | start _ => exact ⟨rfl, rfl⟩
  | step _ _ hak ih =>
    have hg := setsGrow_add_knowledge hak
    exact ⟨hg.1.symm.trans ih.1, hg.2.1.symm.trans ih.2⟩

theorem reach_engineInv {height width : ℤ} {M : Finset Cell} {ai : MinesweeperAI}
    (h : Reach height width M ai) : EngineInv M ai := by
  induction h with
  | start hM =>
    exact ⟨fun s hs => absurd hs (List.not_mem_nil s), Finset.empty_subset M,
      fun c hc => absurd hc (Finset.not_mem_empty c)⟩
  | @step ai0 ai1 cell count fuel hr hobs hak ih =>
    have hdims := reach_dims hr
    have hM : MinesOnBoard ai0.height ai0.width M := by
      rw [hdims.1, hdims.2]
      exact reach_minesOnBoard hr
    exact add_knowledge_engineInv hM ih hobs hak

/-! ### C1: termination of the fixed-point loop on legal truthful inputs -/

/-- C1: for every board size and every engine state reachable by a legal
sequence of truthful observations, any further legal truthful observation
(a board cell not previously played, not itself a mine, reported with the
true number of mines among its Moore neighbours) makes the
`while knowledge_changed` loop inside `add_knowledge` terminate: some
finite fuel makes the fuelled loop return instead of exhausting. -/
theorem add_knowledge_loop_terminates {height width : ℤ} {M : Finset Cell}
    {ai : MinesweeperAI} {cell : Cell} {count : ℤ}
    (hr : Reach height width M ai) (hobs : LegalObs M ai cell count) :
    ∃ fuel ai', ai.add_knowledge fuel cell count = some ai' := by
  have hdims := reach_dims hr
  have hM : MinesOnBoard ai.height ai.width M := by
    rw [hdims.1, hdims.2]
    exact reach_minesOnBoard hr
  exact add_knowledge_terminates hM (reach_engineInv hr) hobs

/-- Witness for C1: a concrete first observation on a 2 × 2 board with one
mine at `(1, 1)`. -/
theorem add_knowledge_loop_terminates_witness :
    ∃ fuel ai', (MinesweeperAI.init 2 2).add_knowledge fuel (0, 0) 1 = some ai' :=
  add_knowledge_loop_terminates
    (@Reach.start 2 2 {((1:ℤ), (1:ℤ))} (by decide))
    (by decide)

/-! ### C2: known mines and known safes never intersect -/

/-- C2: in every engine state reachable by truthful `add_knowledge` calls
from a freshly constructed engine, the sets `mines` and `safes` are
disjoint. -/
theorem mines_safes_disjoint {height width : ℤ} {M : Finset Cell}
    {ai : MinesweeperAI} (hr : Reach height width M ai) :
    ai.mines ∩ ai.safes = ∅ := by
  have hinv := reach_engineInv hr
  refine Finset.eq_empty_iff_forall_not_mem.mpr ?_
  intro c hc
  rw [Finset.mem_inter] at hc
  exact hinv.2.2 c hc.2 (hinv.2.1 hc.1)

/-- Witness for C2: a state reached by one truthful observation on the
2 × 2 board with one mine at `(1, 1)`. -/
theorem mines_safes_disjoint_witness :
    ∃ ai', Reach 2 2 {((1:ℤ), (1:ℤ))} ai' ∧ ai'.mines ∩ ai'.safes = ∅ := by
  have hstart : Reach 2 2 {((1:ℤ), (1:ℤ))} (MinesweeperAI.init 2 2) :=
    Reach.start (by decide)
  have hs : ((MinesweeperAI.init 2 2).add_knowledge 3 (0, 0) 1).isSome = true := by
    decide
  obtain ⟨ai', ha⟩ := Option.isSome_iff_exists.mp hs
  have hr : Reach 2 2 {((1:ℤ), (1:ℤ))} ai' :=
    Reach.step hstart (by decide) ha
  exact ⟨ai', hr, mines_safes_disjoint hr⟩
